import Mathlib

/-!
# texproma: signature builder and interpreter core

A shallow embedding of `fn.c` and `interp.c`.

Conventions of the embedding.

* C strings are `List Char` (the terminating NUL is the end of the list).
* A `TAILQ` of cells is a `List cell_t` in queue order: the head of the list
  is the first element of the queue, `STACK_PUSH` (insert at tail) appends at
  the end, so the top of the operand stack is the last element.
* A pointer to a cell of the operand stack is its position in the list;
  `CELL_NEXT` is the successor position.
* A pointer that may be `NULL` is an `Option`; dereferencing `NULL`, a failed
  `assert` and `abort()` end the run with a `Fault`.
* Native code reached through function pointers is a parameter of the
  evaluator (`natives_t`).
-/

set_option autoImplicit false

namespace Texproma

/-! ## Abnormal termination -/

/-- Ways in which a run of the C code ends without returning. -/
inductive Fault where
  /-- Reached `abort()` or a failing `assert`. -/
  | abort
  /-- Dereferenced a `NULL` pointer. -/
  | null_deref
  /-- The evaluation budget of the model was exhausted (unbounded recursion). -/
  | out_of_fuel
  deriving DecidableEq, Repr

deriving instance DecidableEq for Except

/-- Result of a C function that may terminate abnormally. -/
abbrev Res (α : Type) := Except Fault α

/-! ## Cells (`cell.h`) -/

/-- The cell type descriptors `CT_INT`, ... of `cell.h`. -/
inductive cell_type_t where
  | CT_INT
  | CT_FLOAT
  | CT_ATOM
  | CT_STRING
  | CT_MONO
  | CT_COLOR
  deriving DecidableEq, Repr

open cell_type_t

/-- The `name` field of a cell type descriptor. -/
def cell_type_t.name : cell_type_t → String
  | CT_INT => "integer"
  | CT_FLOAT => "float"
  | CT_ATOM => "atom"
  | CT_STRING => "string"
  | CT_MONO => "mono"
  | CT_COLOR => "color"

/-- A `float` payload.  Floating point arithmetic is not modelled: a float is
represented by the text of the literal it was read from. -/
structure float_t where
  lit : List Char
  deriving DecidableEq, Repr

/-- The payload union of a cell: `i`, `f`, or `ptr` / `atom`.  A pointer
payload is an owned buffer, given by its content: the characters of a
character buffer, or the content `h` of an image buffer, which is not
interpreted. -/
inductive payload_t where
  | i (v : Int)
  | f (v : float_t)
  | chars (s : List Char)
  | handle (h : Nat)
  deriving DecidableEq, Repr

/-- A tagged cell. -/
structure cell_t where
  type : cell_type_t
  val : payload_t
  deriving DecidableEq, Repr

/-- The function `cell_copy`: an independent duplicate of a cell. -/
def cell_copy (c : cell_t) : cell_t := c

/-- The constructor `cell_int`. -/
def cell_int (v : Int) : cell_t := ⟨CT_INT, .i v⟩

/-- The constructor `cell_float`. -/
def cell_float (v : float_t) : cell_t := ⟨CT_FLOAT, .f v⟩

/-- The constructor `cell_mono`: a cell owning a fresh monochrome buffer. -/
def cell_mono : cell_t := ⟨CT_MONO, .handle 0⟩

/-- The constructor `cell_color`: a cell owning a fresh colour buffer. -/
def cell_color : cell_t := ⟨CT_COLOR, .handle 0⟩

/-! ## `ctype.h` in the C locale -/

/-- The function `tolower`. -/
def tolower (c : Char) : Char :=
  if 'A' ≤ c ∧ c ≤ 'Z' then Char.ofNat (c.toNat + 32) else c

/-- The function `islower`. -/
def islower (c : Char) : Bool := decide ('a' ≤ c ∧ c ≤ 'z')

/-- The function `isspace`. -/
def isspace (c : Char) : Bool :=
  c == ' ' || c == '\t' || c == '\n' || c == Char.ofNat 11 || c == Char.ofNat 12 || c == '\r'

/-! ## Function signatures (`fn.c`) -/

/-- Direction flag `ARG_INPUT`. -/
def ARG_INPUT : Nat := 1

/-- Direction flag `ARG_OUTPUT`. -/
def ARG_OUTPUT : Nat := 2

/-- An argument descriptor: `type` is `NULL` (here `none`) for the wildcard. -/
structure fn_arg_t where
  type : Option cell_type_t
  flags : Nat
  deriving DecidableEq, Repr

/-- A function signature: the native function pointer and the descriptor
array; `count` is the length of the array. -/
structure fn_t where
  ptr : Nat
  args : List fn_arg_t
  deriving DecidableEq, Repr

/-- The field `count` of a signature. -/
def fn_t.count (fn : fn_t) : Nat := fn.args.length

/-- Registration record of a native function: pointer and signature string. -/
structure fn_ctor_t where
  ptr : Nat
  sig : List Char
  deriving DecidableEq, Repr

/-- The table `fn_sig_map` (without its zero terminator). -/
def fn_sig_map : List (Char × Option cell_type_t) :=
  [('i', some CT_INT), ('f', some CT_FLOAT), ('a', some CT_ATOM),
   ('s', some CT_STRING), ('m', some CT_MONO), ('c', some CT_COLOR),
   ('?', none)]

/-- The inner loop of `new_fn`: scan the table for the character `t`; the
result is the `ct` field of the first row that matches, or `none` when the
scan reaches the terminator. -/
def fn_sig_lookup (t : Char) : List (Char × Option cell_type_t) → Option (Option cell_type_t)
  | [] => none
  | (t', ct) :: rest => if t = t' then some ct else fn_sig_lookup t rest

/-- One iteration of the outer loop of `new_fn`, for signature character `ch`. -/
def new_fn_arg (ch : Char) : Res fn_arg_t :=
  match fn_sig_lookup (tolower ch) fn_sig_map with
  | none => .error .abort
  | some ct => .ok ⟨ct, if islower ch then ARG_INPUT else ARG_OUTPUT⟩

/-- The outer loop of `new_fn` over the signature string. -/
def new_fn_args : List Char → Res (List fn_arg_t)
  | [] => .ok []
  | ch :: rest =>
    match new_fn_arg ch with
    | .error e => .error e
    | .ok a =>
      match new_fn_args rest with
      | .error e => .error e
      | .ok as => .ok (a :: as)

/-- The function `new_fn`. -/
def new_fn (ctor : fn_ctor_t) : Res fn_t :=
  match new_fn_args ctor.sig with
  | .error e => .error e
  | .ok as => .ok ⟨ctor.ptr, as⟩

/-- The loop of `fn_arg_count` over a descriptor array. -/
def count_args (flags : Nat) : List fn_arg_t → Nat
  | [] => 0
  | a :: rest => (if a.flags &&& flags ≠ 0 then 1 else 0) + count_args flags rest

/-- The function `fn_arg_count`. -/
def fn_arg_count (fn : fn_t) (flags : Nat) : Nat := count_args flags fn.args

/-! ## Words, dictionary and interpreter state (`word.h`, `interp.h`) -/

/-- The kinds of words. -/
inductive word_type_t where
  | WT_BUILTIN
  | WT_DEF
  | WT_CFUNC
  | WT_VAR
  deriving DecidableEq, Repr

open word_type_t

/-- A word.  The field `def_` is the C field `def`, the body of a definition. -/
structure word_t where
  type : word_type_t
  immediate : Bool
  func : Option fn_t
  def_ : List cell_t
  deriving DecidableEq, Repr

/-- A dictionary entry: `word` is `NULL` (here `none`) when the entry owns no
word. -/
structure entry_t where
  key : List Char
  word : Option word_t
  deriving DecidableEq, Repr

/-- Modelled from the spec: the dictionary (`dict_t`, external to the core) is
a collection of entries keyed by name, each owning at most one word. -/
abbrev dict_t := List entry_t

/-- Modelled from the spec: `dict_find` is `find(name) -> entry-or-absent`,
lookup by exact name; `none` is the `NULL` returned for an absent name. -/
def dict_find : dict_t → List Char → Option entry_t
  | [], _ => none
  | e :: rest, key => if e.key = key then some e else dict_find rest key

/-- Modelled from the spec: `dict_add` is `add-or-get(name) -> entry`, an
idempotent insertion.  An entry pointer is represented by its key, so the
function returns the dictionary in which the entry named `key` exists; a new
entry owns no word. -/
def dict_add (d : dict_t) (key : List Char) : dict_t :=
  match dict_find d key with
  | some _ => d
  | none => d ++ [⟨key, none⟩]

/-- Assignment through an entry pointer or a word pointer: replace the
`word` field of the entry named `key`. -/
def dict_set_word : dict_t → List Char → Option word_t → dict_t
  | [], _, _ => []
  | e :: rest, key, w =>
    if e.key = key then ⟨e.key, w⟩ :: rest else e :: dict_set_word rest key w

/-- The values of `tpmi_status_t`; `TPMI_ERROR` is the zero (false) value. -/
inductive tpmi_status_t where
  | TPMI_ERROR
  | TPMI_OK
  | TPMI_NEED_MORE
  deriving DecidableEq, Repr

/-- The compiler modes. -/
inductive tpmi_mode_t where
  | TPMI_EVAL
  | TPMI_COMPILE
  | TPMI_DEFVAR
  | TPMI_FUNCREF
  deriving DecidableEq, Repr

open tpmi_status_t tpmi_mode_t

/-- The message stored by the `ERROR` macro: one constructor per call site,
carrying the arguments of the format string. -/
inductive errmsg_t where
  | unknown_identifier (name : List Char)
  | expected_args (key : List Char) (expected actual : Nat)
  | type_mismatch (key : List Char) (index : Nat) (expected actual : String)
  | missing_closing_quote
  | already_defined (name : List Char)
  | expected_word_name
  | variable_expects_name
  | tick_expects_cfunc
  deriving DecidableEq, Repr

/-- The interpreter state `tpmi_t`.  The pointer `curr_word` points to the
word owned by a dictionary entry and is represented by that entry's key. -/
structure tpmi_t where
  stack : List cell_t
  words : dict_t
  mode : tpmi_mode_t
  curr_word : Option (List Char)
  errmsg : Option errmsg_t
  deriving DecidableEq, Repr

/-- The macro `ERROR`: record the message. -/
def ERROR (interp : tpmi_t) (msg : errmsg_t) : tpmi_t :=
  { interp with errmsg := some msg }

/-- The macro `STACK_PUSH` (insert at the tail of the queue). -/
def STACK_PUSH (l : List cell_t) (c : cell_t) : List cell_t := l ++ [c]

/-- The macro `CELL_NEXT` on a cell position of the list `l`: the successor,
or `NULL` after the last cell. -/
def CELL_NEXT (l : List cell_t) (p : Nat) : Option Nat :=
  if p + 1 < l.length then some (p + 1) else none

/-- The atom name of a cell (the `atom` / `ptr` member of the union). -/
def cell_t.atom (c : cell_t) : List Char :=
  match c.val with
  | .chars s => s
  | _ => []

/-- Native code behind the function pointers of the signatures.
`builtin p` is the routine of a Builtin word, run on the whole interpreter
state.  For a Foreign word, `cfunc p slots i` is what the routine at `p`,
called with the argument values `slots` (in signature order), stores through
the pointer it received as argument `i`, or `none` when it stores nothing
through that argument. -/
structure natives_t where
  builtin : Nat → tpmi_t → tpmi_status_t × tpmi_t
  cfunc : Nat → List payload_t → Nat → Option payload_t

/-! ## The evaluator (`interp.c`) -/

/-- The reverse walk of `stack_get_nth`: `rev` holds the cells not yet
visited, top first, and `pos` is the position of its first cell plus one. -/
def stack_get_nth_loop : List cell_t → Nat → Nat → Option Nat
  | [], _, _ => none
  | _ :: rest, pos, n =>
    match n with
    | 0 => some (pos - 1)
    | m + 1 => stack_get_nth_loop rest (pos - 1) m

/-- The function `stack_get_nth`: the position of the cell `n` places below
the top, or `NULL`. -/
def stack_get_nth (stack : List cell_t) (n : Nat) : Option Nat :=
  if stack.isEmpty then none
  else stack_get_nth_loop stack.reverse stack.length n

/-- The record `arg_info_t`; `first` is unset (`none`) when `args = 0`. -/
structure arg_info_t where
  args : Nat
  first : Option Nat
  deriving DecidableEq, Repr

/-- The dereference of a cell pointer of the list `l`. -/
def cell_at (l : List cell_t) : Option Nat → Res (Nat × cell_t)
  | none => .error .null_deref
  | some p =>
    match l[p]? with
    | none => .error .null_deref
    | some c => .ok (p, c)

/-- The test `(arg->type != NULL) && (arg->type != stk_arg->type)` of
`check_func_args`; when it holds, the names of the two types. -/
def arg_mismatch (arg : fn_arg_t) (c : cell_t) : Option (String × String) :=
  match arg.type with
  | none => none
  | some t => if t ≠ c.type then some (t.name, c.type.name) else none

/-- The checking loop of `check_func_args`: `as` are the descriptors from the
current one on (the loop ends at the first descriptor whose flags are zero;
the array is taken to be followed by such a terminator), `stk_arg` the
current stack cell and `i` the index of the next input. -/
def check_args_loop (interp : tpmi_t) (key : List Char) :
    List fn_arg_t → Option Nat → Nat → Res (Bool × tpmi_t)
  | [], _, _ => .ok (true, interp)
  | arg :: rest, stk_arg, i =>
    if arg.flags = 0 then .ok (true, interp)
    else if arg.flags &&& ARG_INPUT ≠ 0 then
      match cell_at interp.stack stk_arg with
      | .error e => .error e
      | .ok (p, c) =>
        match arg_mismatch arg c with
        | some (expected, actual) =>
          .ok (false, ERROR interp (.type_mismatch key i expected actual))
        | none => check_args_loop interp key rest (CELL_NEXT interp.stack p) (i + 1)
    else check_args_loop interp key rest stk_arg i

/-- The function `check_func_args`. -/
def check_func_args (interp : tpmi_t) (entry : entry_t) : Res (Bool × tpmi_t × arg_info_t) :=
  match entry.word with
  | none => .error .null_deref
  | some word =>
    match word.func with
    | none => .error .null_deref
    | some func =>
      let args := fn_arg_count func ARG_INPUT
      if args = 0 then .ok (true, interp, ⟨args, none⟩)
      else
        match stack_get_nth interp.stack (args - 1) with
        | none =>
          .ok (false, ERROR interp (.expected_args entry.key args interp.stack.length),
               ⟨args, none⟩)
        | some first =>
          match check_args_loop interp entry.key func.args (some first) 0 with
          | .error e => .error e
          | .ok (b, interp1) => .ok (b, interp1, ⟨args, some first⟩)

/-- The result of the evaluator: a status and the interpreter state left. -/
abbrev eval_t := tpmi_status_t × tpmi_t

/-- The loop of the `WT_DEF` branch of `eval_word`, with `status` the value
of the variable of that name; `ec` stands for `eval_cell`. -/
def eval_def_loop (ec : tpmi_t → cell_t → Res eval_t) :
    tpmi_t → tpmi_status_t → List cell_t → Res eval_t
  | interp, status, [] => .ok (status, interp)
  | interp, _, c :: cs =>
    match ec interp c with
    | .error e => .error e
    | .ok (st, interp1) =>
      if st = TPMI_ERROR then .ok (st, interp1) else eval_def_loop ec interp1 st cs

/-- The fresh cell pushed for an output argument of the given type;
`abort()` for a type without constructor. -/
def cfunc_output_cell : Option cell_type_t → Res cell_t
  | some CT_INT => .ok (cell_int 0)
  | some CT_FLOAT => .ok (cell_float ⟨['0', '.', '0']⟩)
  | some CT_MONO => .ok cell_mono
  | some CT_COLOR => .ok cell_color
  | _ => .error .abort

/-- The state of the call construction loop of the `WT_CFUNC` branch:
the operand stack, the pointer `arg`, the argument values built so far (in
order) and, for each output slot, its index and the position of its cell.
The value of argument `i` is what `ffi_call` reads at `arg_value[i]` with the
type `arg_ctype[i]`: the payload of the operand cell for an input; for an
output, whose type is `ffi_type_pointer` and whose `arg_value[i]` is the
address of the payload of the fresh cell, that payload read as a pointer. -/
structure call_t where
  stack : List cell_t
  arg : Option Nat
  slots : List payload_t
  outs : List (Nat × Nat)
  deriving DecidableEq, Repr

/-- The call construction loop of the `WT_CFUNC` branch of `eval_word` over
the descriptors `args[i]`, `args[i+1]`, ... -/
def cfunc_build : List fn_arg_t → Nat → call_t → Res call_t
  | [], _, st => .ok st
  | fn_arg :: rest, i, st =>
    if fn_arg.flags &&& ARG_INPUT ≠ 0 then
      match st.arg with
      | none => .error .null_deref
      | some p =>
        match st.stack[p]? with
        | none => .error .null_deref
        | some c =>
          cfunc_build rest (i + 1)
            { st with arg := CELL_NEXT st.stack p, slots := st.slots ++ [c.val] }
    else
      match cfunc_output_cell fn_arg.type with
      | .error e => .error e
      | .ok c =>
        cfunc_build rest (i + 1)
          { st with stack := STACK_PUSH st.stack c, slots := st.slots ++ [c.val],
                    outs := st.outs ++ [(i, st.stack.length)] }

/-- The effect of `ffi_call` on the stack, output slot by output slot.  The
pointer the native routine receives for output slot `i` is the payload of the
cell of that slot.  For a mono or color cell this is the buffer of the cell,
which receives what the routine stores.  For an integer or float cell it is
the zero payload read as a pointer, that is `NULL`: the storage of the cell is
out of reach of the routine, the cell keeps its payload, and a store through
the pointer is a fault. -/
def cfunc_call (write : Nat → Option payload_t) :
    List (Nat × Nat) → List cell_t → Res (List cell_t)
  | [], stack => .ok stack
  | (i, pos) :: rest, stack =>
    match write i with
    | none => cfunc_call write rest stack
    | some v =>
      match stack[pos]? with
      | none => .error .null_deref
      | some c =>
        match c.val with
        | .handle _ => cfunc_call write rest (stack.modify (fun c => { c with val := v }) pos)
        | _ => .error .null_deref

/-- The loop of the `WT_CFUNC` branch that removes the input cells:
`arg` is the pointer of that name and `k` the number of iterations left. -/
def cfunc_remove : List cell_t → Option Nat → Nat → Res (List cell_t)
  | stack, _, 0 => .ok stack
  | _, none, _ + 1 => .error .null_deref
  | stack, some p, k + 1 =>
    cfunc_remove (stack.eraseIdx p) ((CELL_NEXT stack p).map (fun q => q - 1)) k

/-- The function `eval_word`, with `ec` standing for the recursive calls of
`eval_cell`. -/
def eval_word_with (nat : natives_t) (ec : tpmi_t → cell_t → Res eval_t)
    (interp : tpmi_t) (entry : entry_t) : Res eval_t :=
  match entry.word with
  | none => .error .null_deref
  | some word =>
    match word.type with
    | WT_BUILTIN =>
      match check_func_args interp entry with
      | .error e => .error e
      | .ok (false, interp1, _) => .ok (TPMI_ERROR, interp1)
      | .ok (true, interp1, _) =>
        match word.func with
        | none => .error .null_deref
        | some func => .ok (nat.builtin func.ptr interp1)
    | WT_DEF => eval_def_loop ec interp TPMI_OK word.def_
    | WT_CFUNC =>
      match check_func_args interp entry with
      | .error e => .error e
      | .ok (false, interp1, _) => .ok (TPMI_ERROR, interp1)
      | .ok (true, interp1, ai) =>
        match word.func with
        | none => .error .null_deref
        | some func =>
          let n := fn_arg_count func (ARG_INPUT ||| ARG_OUTPUT)
          match cfunc_build (func.args.take n) 0 ⟨interp1.stack, ai.first, [], []⟩ with
          | .error e => .error e
          | .ok call =>
            match cfunc_call (nat.cfunc func.ptr call.slots) call.outs call.stack with
            | .error e => .error e
            | .ok stack1 =>
              match cfunc_remove stack1 ai.first ai.args with
              | .error e => .error e
              | .ok stack2 => .ok (TPMI_OK, { interp1 with stack := stack2 })
    | WT_VAR => .error .abort

/-- The function `eval_cell`, with `ew` standing for the call of `eval_word`. -/
def eval_cell_with (ew : tpmi_t → entry_t → Res eval_t)
    (interp : tpmi_t) (c : cell_t) : Res eval_t :=
  let push : Res eval_t := .ok (TPMI_OK, { interp with stack := STACK_PUSH interp.stack (cell_copy c) })
  if c.type = CT_ATOM then
    match dict_find interp.words c.atom with
    | none => .error .null_deref
    | some entry =>
      match entry.word with
      | none => .ok (TPMI_ERROR, ERROR interp (.unknown_identifier c.atom))
      | some word => if word.type ≠ WT_VAR then ew interp entry else push
  else push

/-- The function `eval_cell`.  Definitions may call each other without
bound, so the mutual recursion with `eval_word` is cut at nesting depth
`fuel`: a dispatch of a word below that depth ends with
`Fault.out_of_fuel`. -/
def eval_cell (nat : natives_t) : Nat → tpmi_t → cell_t → Res eval_t
  | 0 => eval_cell_with (fun _ _ => .error .out_of_fuel)
  | fuel + 1 => eval_cell_with (eval_word_with nat (eval_cell nat fuel))

/-- The function `eval_word`; it may nest `fuel` further word dispatches. -/
def eval_word (nat : natives_t) (fuel : Nat) (interp : tpmi_t) (entry : entry_t) : Res eval_t :=
  eval_word_with nat (eval_cell nat fuel) interp entry

/-! ## `string.h` and `stdlib.h` -/

/-- The function `strspn`: length of the initial run of characters that
occur in `accept`. -/
def strspn : List Char → List Char → Nat
  | [], _ => 0
  | c :: cs, accept => if c ∈ accept then strspn cs accept + 1 else 0

/-- The function `strcspn`: length of the initial run of characters that do
not occur in `reject`. -/
def strcspn : List Char → List Char → Nat
  | [], _ => 0
  | c :: cs, reject => if c ∈ reject then 0 else strcspn cs reject + 1

/-- The function `strchr`: offset of the first occurrence of `ch`, or `NULL`. -/
def strchr : List Char → Char → Option Nat
  | [], _ => none
  | c :: cs, ch => if c = ch then some 0 else (strchr cs ch).map (fun q => q + 1)

/-- The test `strncmp(a, b, n) == 0`: the strings agree on their first `n`
characters, or up to and including their common end when that comes first. -/
def strncmp : List Char → List Char → Nat → Bool
  | _, _, 0 => true
  | [], [], _ + 1 => true
  | x :: xs, y :: ys, n + 1 => x == y && strncmp xs ys n
  | _, _, _ + 1 => false

/-- The test `strncasecmp(a, b, n) == 0`: as `strncmp`, ignoring case. -/
def strncasecmp : List Char → List Char → Nat → Bool
  | _, _, 0 => true
  | [], [], _ + 1 => true
  | x :: xs, y :: ys, n + 1 => tolower x == tolower y && strncasecmp xs ys n
  | _, _, _ + 1 => false

/-- The value of a character as a digit of `strtol`. -/
def digit_val (c : Char) : Option Nat :=
  if '0' ≤ c ∧ c ≤ '9' then some (c.toNat - 48)
  else if 'a' ≤ c ∧ c ≤ 'z' then some (c.toNat - 87)
  else if 'A' ≤ c ∧ c ≤ 'Z' then some (c.toNat - 55)
  else none

/-- The value of a character as a digit in the given base, if it is one. -/
def digit_in (base : Nat) (c : Char) : Option Nat :=
  match digit_val c with
  | some d => if d < base then some d else none
  | none => none

/-- The values of the maximal initial run of digits in the given base. -/
def take_digits (base : Nat) : List Char → List Nat
  | [] => []
  | c :: cs =>
    match digit_in base c with
    | some d => d :: take_digits base cs
    | none => []

/-- The number of leading characters that `strtol` and `strtof` skip. -/
def skip_space : List Char → Nat
  | [] => 0
  | c :: cs => if isspace c then skip_space cs + 1 else 0

/-- The length of an optional sign and whether it is a minus. -/
def read_sign : List Char → Nat × Bool
  | '-' :: _ => (1, true)
  | '+' :: _ => (1, false)
  | _ => (0, false)

/-- The function `strtol` for a 64-bit `long`: the value and the offset
stored in `*endptr`.  The subject is optional white space, an optional sign,
for base 16 an optional `0x` or `0X` (taken only when a hexadecimal digit
follows), and a nonempty run of digits; with no digits at all the offset is
0 and the value 0.  A value out of range is clamped. -/
def strtol (nptr : List Char) (base : Nat) : Int × Nat :=
  let ws := skip_space nptr
  let s := nptr.drop ws
  let sg := read_sign s
  let s := s.drop sg.1
  let px : Nat :=
    if base = 16 then
      match s with
      | '0' :: x :: h :: _ => if tolower x = 'x' ∧ (digit_in 16 h).isSome then 2 else 0
      | _ => 0
    else 0
  let ds := take_digits base (s.drop px)
  if ds.isEmpty then (0, 0)
  else
    let v : Int := (ds.foldl (fun a d => a * base + d) 0 : Nat)
    let v := if sg.2 then -v else v
    let v := if v < -(2 ^ 63) then -(2 ^ 63) else if 2 ^ 63 - 1 < v then 2 ^ 63 - 1 else v
    (v, ws + sg.1 + px + ds.length)

/-- Conversion of a `long` to `int` (32-bit two's complement). -/
def long_to_int (v : Int) : Int := (v + 2 ^ 31) % 2 ^ 32 - 2 ^ 31

/-- The length of a mantissa of `strtof`: a run of digits of the base with
at most one radix point and at least one digit; 0 when there is none. -/
def mantissa_len (base : Nat) (s : List Char) : Nat :=
  let m1 := (take_digits base s).length
  match s.drop m1 with
  | '.' :: rest =>
    let m2 := (take_digits base rest).length
    if m1 + m2 = 0 then 0 else m1 + 1 + m2
  | _ => m1

/-- The length of an optional exponent of `strtof` introduced by the letter
`e` (lower case): the letter, an optional sign and a nonempty run of decimal
digits; 0 when there is none. -/
def exponent_len (e : Char) : List Char → Nat
  | [] => 0
  | c :: rest =>
    if tolower c = e then
      let sg := read_sign rest
      let ds := (take_digits 10 (rest.drop sg.1)).length
      if ds = 0 then 0 else 1 + sg.1 + ds
    else 0

/-- The string `s` starts with the lower-case word `w`, ignoring case. -/
def starts_with_ci : List Char → List Char → Bool
  | [], _ => true
  | _ :: _, [] => false
  | w :: ws, c :: cs => tolower c == w && starts_with_ci ws cs

/-- The length of the optional `(n-char-sequence)` after `nan`. -/
def nan_suffix_len : List Char → Nat
  | '(' :: rest =>
    let m := (rest.takeWhile (fun c => (digit_val c).isSome || c == '_')).length
    match rest.drop m with
    | ')' :: _ => m + 2
    | _ => 0
  | _ => 0

/-- The length of the number that `strtof` reads after white space and sign:
`infinity`, `inf`, `nan` with optional suffix, a hexadecimal or a decimal
floating constant; 0 when there is none. -/
def float_len (s : List Char) : Nat :=
  if starts_with_ci ['i', 'n', 'f', 'i', 'n', 'i', 't', 'y'] s then 8
  else if starts_with_ci ['i', 'n', 'f'] s then 3
  else if starts_with_ci ['n', 'a', 'n'] s then 3 + nan_suffix_len (s.drop 3)
  else
    let hex : Nat :=
      match s with
      | '0' :: x :: rest =>
        if tolower x = 'x' then
          let m := mantissa_len 16 rest
          if m = 0 then 0 else 2 + m + exponent_len 'p' (rest.drop m)
        else 0
      | _ => 0
    if hex ≠ 0 then hex
    else
      let m := mantissa_len 10 s
      if m = 0 then 0 else m + exponent_len 'e' (s.drop m)

/-- The function `strtof`: the value (the text read) and the offset stored
in `*endptr`; with no conversion the offset is 0. -/
def strtof (nptr : List Char) : float_t × Nat :=
  let ws := skip_space nptr
  let s := nptr.drop ws
  let sg := read_sign s
  let m := float_len (s.drop sg.1)
  if m = 0 then (⟨['0', '.', '0']⟩, 0)
  else (⟨(s.take (sg.1 + m))⟩, ws + sg.1 + m)

/-- The function `strndup`. -/
def strndup (s : List Char) (n : Nat) : List Char := s.take n

/-! ## The tokenizer, the classifier and the compiler (`interp.c`) -/

/-- The function `read_float`: whether the conversion ended at `str + span`,
and the value stored in `*f`. -/
def read_float (str : List Char) (span : Nat) : Bool × float_t :=
  let r := strtof str
  (r.2 == span, r.1)

/-- The function `read_int`: whether the conversion ended at `str + span`,
and the value stored in `*i`. -/
def read_int (str : List Char) (span : Nat) : Bool × Int :=
  let hex : Bool :=
    match str with
    | '0' :: x :: _ => tolower x == 'x'
    | _ => false
  let r := strtol (if hex then str.drop 2 else str) (if hex then 16 else 10)
  let end_ := (if hex then 2 else 0) + r.2
  (end_ == span, long_to_int r.1)

/-- The function `make_cell`: `line` is the text from the first character of
the token to the end of the line and `span` the length of the token.  The
length `span - 2` is computed in `unsigned` arithmetic. -/
def make_cell (line : List Char) (span : Nat) : cell_t :=
  let ri := read_int line span
  if ri.1 then ⟨CT_INT, .i ri.2⟩
  else
    let rf := read_float line span
    if rf.1 then ⟨CT_FLOAT, .f rf.2⟩
    else if line.head? = some '"' ∧ (line)[span - 1]? = some '"' then
      ⟨CT_STRING, .chars (strndup (line.drop 1) ((span + 2 ^ 32 - 2) % 2 ^ 32))⟩
    else ⟨CT_ATOM, .chars (strndup line span)⟩

/-- Apply `f` to the word owned by the entry named `key` (an update through
a word pointer). -/
def word_update (d : dict_t) (key : List Char) (f : word_t → word_t) : dict_t :=
  match dict_find d key with
  | some ⟨_, some w⟩ => dict_set_word d key (some (f w))
  | _ => d

/-- The word owned by the entry named `key`, if the entry exists and owns
one (`entry->word` after a lookup). -/
def dict_word (d : dict_t) (key : List Char) : Option word_t :=
  match dict_find d key with
  | some e => e.word
  | none => none

/-- The body of the loop of `tpmi_compile` for one token, from the call of
`make_cell` to the end of the `switch`: `line` is the text from the first
character of the token on and `len` the length of the token. -/
def tpmi_compile_token (nat : natives_t) (fuel : Nat) (interp : tpmi_t)
    (line : List Char) (len : Nat) : Res eval_t :=
  let c := make_cell line len
  match interp.mode with
  | TPMI_EVAL =>
    if strncmp line [':'] len then
      .ok (TPMI_NEED_MORE, { interp with mode := TPMI_COMPILE, curr_word := none })
    else if strncmp line [Char.ofNat 39] len then
      .ok (TPMI_NEED_MORE, { interp with mode := TPMI_FUNCREF })
    else if strncasecmp line "variable".toList len then
      .ok (TPMI_NEED_MORE, { interp with mode := TPMI_DEFVAR })
    else if strncasecmp line "immediate".toList len then
      match interp.curr_word with
      | some key =>
        .ok (TPMI_OK, { interp with
          words := word_update interp.words key (fun w => { w with immediate := true }) })
      | none => .ok (TPMI_OK, interp)
    else eval_cell nat fuel interp c
  | TPMI_COMPILE =>
    if strncmp line [';'] len then
      .ok (TPMI_OK, { interp with mode := TPMI_EVAL })
    else
      match interp.curr_word with
      | none =>
        if c.type = CT_ATOM then
          let words := dict_add interp.words c.atom
          match dict_word words c.atom with
          | none =>
            let word : word_t := ⟨WT_DEF, false, none, []⟩
            .ok (TPMI_NEED_MORE, { interp with
              words := dict_set_word words c.atom (some word), curr_word := some c.atom })
          | some _ =>
            .ok (TPMI_ERROR, ERROR { interp with words := words } (.already_defined c.atom))
        else .ok (TPMI_ERROR, ERROR interp .expected_word_name)
      | some curr =>
        if c.type = CT_ATOM then
          let words := dict_add interp.words c.atom
          match dict_word words c.atom with
          | none => .error .null_deref
          | some word =>
            if word.immediate then eval_cell nat fuel { interp with words := words } c
            else
              .ok (TPMI_NEED_MORE, { interp with
                words := word_update words curr
                  (fun w => { w with def_ := STACK_PUSH w.def_ (cell_copy c) }) })
        else
          .ok (TPMI_NEED_MORE, { interp with
            words := word_update interp.words curr
              (fun w => { w with def_ := STACK_PUSH w.def_ (cell_copy c) }) })
  | TPMI_DEFVAR =>
    let interp := { interp with mode := TPMI_EVAL }
    if c.type = CT_ATOM then
      let words := dict_add interp.words c.atom
      match dict_word words c.atom with
      | none => .error .null_deref
      | some word =>
        .ok (TPMI_OK, { interp with
          words := dict_set_word words c.atom (some { word with type := WT_VAR }) })
    else .ok (TPMI_ERROR, ERROR interp .variable_expects_name)
  | TPMI_FUNCREF =>
    let interp := { interp with mode := TPMI_EVAL }
    if c.type = CT_ATOM then
      let words := dict_add interp.words c.atom
      match dict_word words c.atom with
      | none => .error .null_deref
      | some word =>
        if word.type = WT_CFUNC then
          .ok (TPMI_OK, { interp with
            words := words, stack := STACK_PUSH interp.stack (cell_copy c) })
        else .ok (TPMI_ERROR, ERROR { interp with words := words } .tick_expects_cfunc)
    else .ok (TPMI_ERROR, ERROR interp .tick_expects_cfunc)

/-- What `tpmi_compile` leaves: the returned status, the interpreter state,
and the token number of the `failure at token` report when one is printed. -/
structure compile_t where
  status : tpmi_status_t
  interp : tpmi_t
  failure : Option Nat
  deriving DecidableEq, Repr

/-- The white space set of the tokenizer. -/
def blanks : List Char := [' ', '\t', '\n']

/-- The length of the token at the start of `line` (after white space was
skipped), or `none` for a quote without closing quote. -/
def token_len (line : List Char) : Option Nat :=
  if line.head? = some '"' then
    match strchr (line.drop 1) '"' with
    | none => none
    | some closing => some (closing + 2)
  else some (strcspn line blanks)

/-- The loop of `tpmi_compile`; `status` and `n` are the variables of those
names.  Every iteration but the last consumes a token of at least one
character, so `k` iterations suffice for a line shorter than `k`. -/
def tpmi_compile_loop (nat : natives_t) (fuel : Nat) :
    Nat → tpmi_t → List Char → tpmi_status_t → Nat → Res compile_t
  | 0, _, _, _, _ => .error .out_of_fuel
  | k + 1, interp, line, status, n =>
    let line := line.drop (strspn line blanks)
    match token_len line with
    | none => .ok ⟨TPMI_ERROR, ERROR interp .missing_closing_quote, some (n + 1)⟩
    | some len =>
      if len = 0 then .ok ⟨status, interp, none⟩
      else
        match tpmi_compile_token nat fuel interp line len with
        | .error e => .error e
        | .ok (st, interp1) =>
          if st = TPMI_ERROR then .ok ⟨st, interp1, some (n + 1)⟩
          else tpmi_compile_loop nat fuel k interp1 (line.drop len) st n

/-- The function `tpmi_compile`. -/
def tpmi_compile (nat : natives_t) (fuel : Nat) (interp : tpmi_t) (line : List Char) :
    Res compile_t :=
  tpmi_compile_loop nat fuel (line.length + 1) interp line TPMI_OK 0

/-! ## Reference definitions for the properties -/

/-- The letters of the signature mini-language, in both cases. -/
def sig_letters : List Char :=
  ['i', 'f', 'a', 's', 'm', 'c', 'I', 'F', 'A', 'S', 'M', 'C']

/-- The semantic type selected by a signature letter, whatever its case. -/
def sig_type : Char → Option cell_type_t
  | 'i' | 'I' => some CT_INT
  | 'f' | 'F' => some CT_FLOAT
  | 'a' | 'A' => some CT_ATOM
  | 's' | 'S' => some CT_STRING
  | 'm' | 'M' => some CT_MONO
  | 'c' | 'C' => some CT_COLOR
  | _ => none

/-- The direction selected by the case of a signature letter: input for a
lower-case letter, output for an upper-case one. -/
def sig_dir (ch : Char) : Nat :=
  if ch ∈ ['i', 'f', 'a', 's', 'm', 'c'] then ARG_INPUT else ARG_OUTPUT

/-- A position of the list `l` as a cell pointer: `NULL` past the end. -/
def cell_ptr (l : List cell_t) (p : Nat) : Option Nat := if p < l.length then some p else none

/-- The input descriptors of a descriptor list, in signature order. -/
def input_args (as : List fn_arg_t) : List fn_arg_t := as.filter (fun a => a.flags = ARG_INPUT)

/-- A descriptor accepts a cell: it is the wildcard or has the type of the
cell. -/
def arg_matches (a : fn_arg_t) (c : cell_t) : Prop := a.type = none ∨ a.type = some c.type

instance (a : fn_arg_t) (c : cell_t) : Decidable (arg_matches a c) := by
  unfold arg_matches; infer_instance

/-- The first input descriptor that does not accept its operand, searching
the inputs `ins` against the operands `ops` pairwise from index `i`: the
index and the two types. -/
def first_mismatch : List fn_arg_t → List cell_t → Nat → Option (Nat × cell_type_t × cell_type_t)
  | a :: as, c :: cs, i =>
    match a.type with
    | some t => if t ≠ c.type then some (i, t, c.type) else first_mismatch as cs (i + 1)
    | none => first_mismatch as cs (i + 1)
  | _, _, _ => none

/-- The payload of the fresh cell pushed for an output descriptor of the
given type. -/
def output_init (t : Option cell_type_t) : payload_t :=
  match cfunc_output_cell t with
  | .ok c => c.val
  | .error _ => .i 0

/-- The argument values of a Foreign call, in signature order: the payload of
the next operand for an input descriptor (operands `ops` taken from the
deepest one on), the payload of the fresh cell, passed as a pointer, for an
output descriptor. -/
def call_slots : List fn_arg_t → List cell_t → List payload_t
  | [], _ => []
  | a :: as, ops =>
    if a.flags = ARG_INPUT then
      match ops with
      | c :: cs => c.val :: call_slots as cs
      | [] => []
    else output_init a.type :: call_slots as ops

/-- The payload of the output cell of type `t` after a Foreign call whose
native routine stores `w` through the pointer of the slot (`none`: it stores
nothing): a mono or color cell holds what was stored in its buffer, or the
content of the fresh buffer; an integer or float cell holds its initial
payload. -/
def output_val (t : cell_type_t) (w : Option payload_t) : payload_t :=
  if t = CT_MONO ∨ t = CT_COLOR then w.getD (output_init (some t)) else output_init (some t)

/-- The output cells of a Foreign call that returns, in signature order: for
the output descriptor at index `i` of the signature, a cell of the declared
type with the payload `output_val`, where `write i` is what the native
routine stores through the pointer of slot `i`. -/
def output_cells (write : Nat → Option payload_t) : Nat → List fn_arg_t → List cell_t
  | _, [] => []
  | i, a :: as =>
    if a.flags = ARG_OUTPUT then
      match a.type with
      | some t => ⟨t, output_val t (write i)⟩ :: output_cells write (i + 1) as
      | none => output_cells write (i + 1) as
    else output_cells write (i + 1) as

/-- The native routine stores through the pointer of an integer or float
output slot, among the descriptors numbered from `i`. -/
def stores_null (write : Nat → Option payload_t) : Nat → List fn_arg_t → Bool
  | _, [] => false
  | i, a :: as =>
    (decide (a.flags = ARG_OUTPUT)
        && (decide (a.type = some CT_INT) || decide (a.type = some CT_FLOAT))
        && (write i).isSome)
      || stores_null write (i + 1) as

/-- The types for which `eval_word` can construct an output cell. -/
def output_types : List cell_type_t := [CT_INT, CT_FLOAT, CT_MONO, CT_COLOR]

/-- The signatures of Foreign words that `eval_word` can call: every
descriptor is an input, or an output of type integer, float, mono or color. -/
def cfunc_wf (as : List fn_arg_t) : Prop :=
  ∀ a ∈ as, a.flags = ARG_INPUT ∨
    (a.flags = ARG_OUTPUT ∧ ∃ t, t ∈ output_types ∧ a.type = some t)

/-- The fresh cells pushed for the output descriptors of a signature, in
signature order. -/
def fresh_cells : List fn_arg_t → List cell_t
  | [] => []
  | a :: as =>
    if a.flags = ARG_OUTPUT then
      match cfunc_output_cell a.type with
      | .ok c => c :: fresh_cells as
      | .error _ => fresh_cells as
    else fresh_cells as

/-- The slot index and the stack position of the cell of each output
descriptor, for descriptors numbered from `i` and cells pushed from position
`pos` on. -/
def out_positions : Nat → Nat → List fn_arg_t → List (Nat × Nat)
  | _, _, [] => []
  | i, pos, a :: as =>
    if a.flags = ARG_OUTPUT then (i, pos) :: out_positions (i + 1) (pos + 1) as
    else out_positions (i + 1) pos as

instance (as : List fn_arg_t) : Decidable (cfunc_wf as) := by
  unfold cfunc_wf; infer_instance

/-! ## An example interpreter -/

/-- Example native routines of Builtin words: pointer 0 duplicates the top
cell, pointer 1 multiplies and any other pointer adds the two top integers. -/
def ex_builtin (p : Nat) (interp : tpmi_t) : tpmi_status_t × tpmi_t :=
  match p, interp.stack.reverse with
  | 0, c :: rest => (TPMI_OK, { interp with stack := (c :: c :: rest).reverse })
  | 1, ⟨_, .i b⟩ :: ⟨_, .i a⟩ :: rest =>
    (TPMI_OK, { interp with stack := (cell_int (a * b) :: rest).reverse })
  | _ + 2, ⟨_, .i b⟩ :: ⟨_, .i a⟩ :: rest =>
    (TPMI_OK, { interp with stack := (cell_int (a + b) :: rest).reverse })
  | _, _ => (TPMI_ERROR, interp)

/-- Example native routines of Foreign words of one input and one output:
the routine at pointer 3 stores the float `2.5` through its second argument,
the routine at pointer 5 stores the image content `7` through its second
argument, and any other routine stores nothing. -/
def ex_cfunc (p : Nat) (_ : List payload_t) (i : Nat) : Option payload_t :=
  match p, i with
  | 3, 1 => some (.f ⟨['2', '.', '5']⟩)
  | 5, 1 => some (.handle 7)
  | _, _ => none

/-- The example native routines. -/
def ex_natives : natives_t := ⟨ex_builtin, ex_cfunc⟩

/-- An example Builtin or Foreign word of the given kind and signature. -/
def ex_word (type : word_type_t) (ptr : Nat) (args : List fn_arg_t) : word_t :=
  ⟨type, false, some ⟨ptr, args⟩, []⟩

/-- The example dictionary: the Builtin words dup, star and plus, and the
Foreign word half of signature iF. -/
def ex_words : dict_t :=
  [⟨['d', 'u', 'p'], some (ex_word WT_BUILTIN 0 [⟨none, ARG_INPUT⟩])⟩,
   ⟨['*'], some (ex_word WT_BUILTIN 1 [⟨some CT_INT, ARG_INPUT⟩, ⟨some CT_INT, ARG_INPUT⟩])⟩,
   ⟨['+'], some (ex_word WT_BUILTIN 2 [⟨some CT_INT, ARG_INPUT⟩, ⟨some CT_INT, ARG_INPUT⟩])⟩,
   ⟨['h', 'a', 'l', 'f'],
    some (ex_word WT_CFUNC 3 [⟨some CT_INT, ARG_INPUT⟩, ⟨some CT_FLOAT, ARG_OUTPUT⟩])⟩]

/-- The example interpreter state in Evaluate mode with the given stack. -/
def ex_interp (stack : List cell_t) : tpmi_t := ⟨stack, ex_words, TPMI_EVAL, none, none⟩

/-! ## Reference tokenizer -/

/-- The white space of the source grammar: space, tab and newline. -/
def is_blank (c : Char) : Bool := c == ' ' || c == '\t' || c == '\n'

/-- A token as the compiler receives it: `line` is the text from the first
character of the token to the end of the line, `len` the length of the
token. -/
structure token_t where
  line : List Char
  len : Nat
  deriving DecidableEq, Repr

/-- The text of a token. -/
def token_t.text (t : token_t) : List Char := t.line.take t.len

/-- The tokens of a line, by the rule of the source grammar, repeated at most
`k` times: skip the white space; at a double quote the token runs to the
next double quote inclusive, and without one the scan stops as unterminated;
otherwise the token is the maximal run of characters other than white space;
an empty token ends the line.  The flag tells that the scan did not stop at
an unterminated quote. -/
def tokenize_loop : Nat → List Char → List token_t × Bool
  | 0, _ => ([], true)
  | k + 1, line =>
    match line.dropWhile is_blank with
    | [] => ([], true)
    | '"' :: r =>
      if '"' ∈ r then
        let len := (r.takeWhile (fun c => c != '"')).length + 2
        let t := tokenize_loop k (('"' :: r).drop len)
        (⟨'"' :: r, len⟩ :: t.1, t.2)
      else ([], false)
    | c :: r =>
      let len := ((c :: r).takeWhile (fun c => !is_blank c)).length
      let t := tokenize_loop k ((c :: r).drop len)
      (⟨c :: r, len⟩ :: t.1, t.2)

/-- The tokens of a line and whether every quote is closed. -/
def tokenize (line : List Char) : List token_t × Bool := tokenize_loop (line.length + 1) line

/-- Processing of a sequence of tokens by the compiler, one after the other
from the status `status`: it stops at the first token whose processing fails
and, after the last token of a line with an unterminated quote, fails with
the message for the missing quote. -/
def run_tokens (nat : natives_t) (fuel : Nat) :
    tpmi_t → tpmi_status_t → List token_t → Bool → Res eval_t
  | interp, status, [], closed =>
    if closed then .ok (status, interp)
    else .ok (TPMI_ERROR, ERROR interp .missing_closing_quote)
  | interp, _, t :: ts, closed =>
    match tpmi_compile_token nat fuel interp t.line t.len with
    | .error e => .error e
    | .ok (st, interp1) =>
      if st = TPMI_ERROR then .ok (st, interp1) else run_tokens nat fuel interp1 st ts closed

/-- The status and the state of a result of `tpmi_compile`. -/
def compile_t.eval (r : compile_t) : eval_t := (r.status, r.interp)

/-! ## Example states -/

/-- The example state after the tokens `:` and `w`: Compile mode with the
empty definition of `w` open. -/
def ex_open_w : tpmi_t :=
  { ex_interp [] with
    words := ex_words ++ [⟨['w'], some ⟨WT_DEF, false, none, []⟩⟩],
    mode := TPMI_COMPILE, curr_word := some ['w'] }

/-- The example state after the lines `: v 1 ;` and `: w v ;`. -/
def ex_v_w (stack : List cell_t) : tpmi_t :=
  { ex_interp stack with
    words := ex_words ++
      [⟨['v'], some ⟨WT_DEF, false, none, [⟨CT_INT, .i 1⟩]⟩⟩,
       ⟨['w'], some ⟨WT_DEF, false, none, [⟨CT_ATOM, .chars ['v']⟩]⟩⟩],
    curr_word := some ['w'] }

/-- The example state after the line `: sq dup * ;`. -/
def ex_sq (stack : List cell_t) : tpmi_t :=
  { ex_interp stack with
    words := ex_words ++
      [⟨['s', 'q'], some ⟨WT_DEF, false, none,
        [⟨CT_ATOM, .chars ['d', 'u', 'p']⟩, ⟨CT_ATOM, .chars ['*']⟩]⟩⟩],
    curr_word := some ['s', 'q'] }

/-- The example state after the lines `: helper 1 + ;` and
`immediate : user helper ;`. -/
def ex_helper_user (stack : List cell_t) : tpmi_t :=
  { ex_interp stack with
    words := ex_words ++
      [⟨['h', 'e', 'l', 'p', 'e', 'r'], some ⟨WT_DEF, true, none,
        [⟨CT_INT, .i 1⟩, ⟨CT_ATOM, .chars ['+']⟩]⟩⟩,
       ⟨['u', 's', 'e', 'r'], some ⟨WT_DEF, false, none, []⟩⟩],
    curr_word := some ['u', 's', 'e', 'r'] }

/-! ## Conditions on the native routines -/

/-- The native routines of Builtin words leave the component `f` of the
interpreter state as it was. -/
def natives_keep {α : Type} (f : tpmi_t → α) (nat : natives_t) : Prop :=
  ∀ (p : Nat) (interp : tpmi_t), f (nat.builtin p interp).2 = f interp

/-- The native routines of Builtin words return ok or error, never
need-more. -/
def natives_settle (nat : natives_t) : Prop :=
  ∀ (p : Nat) (interp : tpmi_t), (nat.builtin p interp).1 ≠ TPMI_NEED_MORE

/-- The component `f` of the interpreter state does not depend on the
operand stack and the error message. -/
def off_stack {α : Type} (f : tpmi_t → α) : Prop :=
  (∀ (interp : tpmi_t) (s : List cell_t), f { interp with stack := s } = f interp) ∧
  (∀ (interp : tpmi_t) (m : errmsg_t), f (ERROR interp m) = f interp)

/-- The example state after the line `: a 1 ;` with the given immediate flag
of `a` and the given current word. -/
def ex_a (immediate : Bool) (curr : Option (List Char)) : tpmi_t :=
  { ex_interp [] with
    words := ex_words ++ [⟨['a'], some ⟨WT_DEF, immediate, none, [⟨CT_INT, .i 1⟩]⟩⟩],
    curr_word := curr }

/-- The token is an immediate word met while a definition is open: the mode
is Compile with a current word, the token is not `;`, and it is an atom
whose name owns a word with the immediate flag set. -/
def immediate_run (interp : tpmi_t) (line : List Char) (len : Nat) : Prop :=
  interp.mode = TPMI_COMPILE ∧ strncmp line [';'] len = false ∧ interp.curr_word ≠ none ∧
  (make_cell line len).type = CT_ATOM ∧
  ∃ w, dict_word interp.words (make_cell line len).atom = some w ∧ w.immediate = true

/-- The example state after the line `: a a ;`, with the given immediate
flag of `a`. -/
def ex_rec (immediate : Bool) : tpmi_t :=
  { ex_interp [] with
    words := ex_words ++ [⟨['a'], some ⟨WT_DEF, immediate, none, [⟨CT_ATOM, .chars ['a']⟩]⟩⟩],
    curr_word := some ['a'] }

/-! ## Reachable states and definition bodies -/

/-- The states reachable from the state `init` by feeding lines to
`tpmi_compile`: every line is processed from the state left by the line
before, whatever status it returned. -/
inductive reachable (nat : natives_t) (init : tpmi_t) : tpmi_t → Prop where
  | start : reachable nat init init
  | feed (interp : tpmi_t) (fuel : Nat) (line : List Char) (r : compile_t) :
      reachable nat init interp → tpmi_compile nat fuel interp line = .ok r →
      reachable nat init r.interp

/-- No word of the dictionary has a body: nothing was compiled yet. -/
def no_bodies (d : dict_t) : Prop :=
  ∀ e ∈ d, (e.word.map (fun w => w.def_)).getD [] = []

instance (d : dict_t) : Decidable (no_bodies d) := by
  unfold no_bodies; infer_instance

/-- The lookup `V` after an update of the word named `key` by `f` through
its word pointer. -/
def view_update (V : List Char → Option word_t) (key : List Char) (f : word_t → word_t) :
    List Char → Option word_t :=
  fun k => if k = key then (V key).map f else V k

/-- The lookup `V` after the entry named `key` received the word `nw`. -/
def view_set (V : List Char → Option word_t) (key : List Char) (nw : word_t) :
    List Char → Option word_t :=
  fun k => if k = key then some nw else V k

/-- The invariant of the bodies, for the lookup `V` (name to word) and the
current word `curr`: an atom of the body of the word named `k` that names an
immediate word names `k` itself; while `curr` is the current word, no body
but its own names it; every atom of a body names a word. -/
def inv_on (V : List Char → Option word_t) (curr : Option (List Char)) : Prop :=
  (∀ (k : List Char) (w : word_t) (c : cell_t) (w' : word_t),
    V k = some w → c ∈ w.def_ → c.type = CT_ATOM →
    V c.atom = some w' → w'.immediate = true → c.atom = k) ∧
  (∀ (k0 k : List Char) (w : word_t) (c : cell_t),
    curr = some k0 → V k = some w → c ∈ w.def_ → c.type = CT_ATOM →
    c.atom = k0 → k = k0) ∧
  (∀ (k : List Char) (w : word_t) (c : cell_t),
    V k = some w → c ∈ w.def_ → c.type = CT_ATOM → ∃ w', V c.atom = some w')

/-- The invariant of the bodies in an interpreter state. -/
def body_inv (interp : tpmi_t) : Prop :=
  inv_on (dict_word interp.words) interp.curr_word

/-- The example state after the lines `: a 1 ;` and `: b a ;`, with the given
immediate flag of `b`. -/
def ex_a_b (immediate : Bool) : tpmi_t :=
  { ex_interp [] with
    words := ex_words ++
      [⟨['a'], some ⟨WT_DEF, false, none, [⟨CT_INT, .i 1⟩]⟩⟩,
       ⟨['b'], some ⟨WT_DEF, immediate, none, [⟨CT_ATOM, .chars ['a']⟩]⟩⟩],
    curr_word := some ['b'] }

/-! ## Properties -/

/-! ### Signature builder -/

theorem new_fn_arg_letter (ch : Char) (h : ch ∈ sig_letters) :
    new_fn_arg ch = .ok ⟨sig_type ch, sig_dir ch⟩ ∧ (sig_type ch).isSome := by
  simp only [sig_letters, List.mem_cons, List.mem_singleton, List.not_mem_nil, or_false] at h
  rcases h with rfl | rfl | rfl | rfl | rfl | rfl | rfl | rfl | rfl | rfl | rfl | rfl <;>
    exact ⟨by rfl, by rfl⟩

theorem new_fn_args_letters (sig : List Char) (h : ∀ ch ∈ sig, ch ∈ sig_letters) :
    new_fn_args sig = .ok (sig.map (fun ch => ⟨sig_type ch, sig_dir ch⟩)) := by
  induction sig with
  | nil => rfl
  | cons ch rest ih =>
    have h1 := (new_fn_arg_letter ch (h ch (List.mem_cons_self _ _))).1
    have h2 := ih (fun c hc => h c (List.mem_cons_of_mem _ hc))
    simp [new_fn_args, h1, h2]

theorem sig_dir_cases (ch : Char) : sig_dir ch = ARG_INPUT ∨ sig_dir ch = ARG_OUTPUT := by
  unfold sig_dir
  split
  · exact Or.inl rfl
  · exact Or.inr rfl

theorem count_args_split (as : List fn_arg_t)
    (h : ∀ a ∈ as, a.flags = ARG_INPUT ∨ a.flags = ARG_OUTPUT) :
    count_args ARG_INPUT as + count_args ARG_OUTPUT as = as.length := by
  induction as with
  | nil => rfl
  | cons a rest ih =>
    have ih1 := ih (fun b hb => h b (List.mem_cons_of_mem _ hb))
    rcases h a (List.mem_cons_self _ _) with ha | ha
    · have e1 : a.flags &&& ARG_INPUT = 1 := by rw [ha]; rfl
      have e2 : a.flags &&& ARG_OUTPUT = 0 := by rw [ha]; rfl
      simp only [count_args, e1, e2, List.length_cons]
      simp
      omega
    · have e1 : a.flags &&& ARG_INPUT = 0 := by rw [ha]; rfl
      have e2 : a.flags &&& ARG_OUTPUT = 2 := by rw [ha]; rfl
      simp only [count_args, e1, e2, List.length_cons]
      simp
      omega

/-- C8. For a signature string made of the letters i, f, a, s, m, c in either
case, `new_fn` returns a signature with one descriptor per character, in
order: the type is the one the letter selects, the direction is input for a
lower-case and output for an upper-case letter; the input count and the
output count of `fn_arg_count` add up to the length of the string. -/
theorem new_fn_decodes_letters (ctor : fn_ctor_t)
    (h : ∀ ch ∈ ctor.sig, ch ∈ sig_letters) :
    ∃ fn, new_fn ctor = .ok fn ∧ fn.ptr = ctor.ptr ∧
      fn.count = ctor.sig.length ∧
      fn.args = ctor.sig.map (fun ch => ⟨sig_type ch, sig_dir ch⟩) ∧
      (∀ (i : Nat) (ch : Char), ctor.sig[i]? = some ch →
        (sig_type ch).isSome ∧ fn.args[i]? = some (⟨sig_type ch, sig_dir ch⟩ : fn_arg_t)) ∧
      fn_arg_count fn ARG_INPUT + fn_arg_count fn ARG_OUTPUT = ctor.sig.length := by
  refine ⟨⟨ctor.ptr, ctor.sig.map (fun ch => ⟨sig_type ch, sig_dir ch⟩)⟩, ?_, rfl, ?_, rfl, ?_, ?_⟩
  · simp [new_fn, new_fn_args_letters ctor.sig h]
  · simp [fn_t.count]
  · intro i ch hi
    refine ⟨(new_fn_arg_letter ch (h ch (List.getElem?_mem hi))).2, ?_⟩
    simp [List.getElem?_map, hi]
  · have := count_args_split (ctor.sig.map (fun ch => (⟨sig_type ch, sig_dir ch⟩ : fn_arg_t)))
      (by
        intro a ha
        rcases List.mem_map.1 ha with ⟨ch, _, rfl⟩
        exact sig_dir_cases ch)
    simpa [fn_arg_count] using this

/-- Witness of C8 on the signature `iF`: an integer input followed by a float
output. -/
theorem new_fn_decodes_letters_witness :
    (∀ ch ∈ (⟨7, ['i', 'F']⟩ : fn_ctor_t).sig, ch ∈ sig_letters) ∧
    ∃ fn, new_fn ⟨7, ['i', 'F']⟩ = .ok fn ∧ fn.ptr = 7 ∧ fn.count = 2 ∧
      fn.args = [⟨some CT_INT, ARG_INPUT⟩, ⟨some CT_FLOAT, ARG_OUTPUT⟩] ∧
      fn_arg_count fn ARG_INPUT + fn_arg_count fn ARG_OUTPUT = 2 := by
  have hl : ∀ ch ∈ (⟨7, ['i', 'F']⟩ : fn_ctor_t).sig, ch ∈ sig_letters := by decide
  obtain ⟨fn, h1, h2, h3, h4, _, h6⟩ := new_fn_decodes_letters ⟨7, ['i', 'F']⟩ hl
  exact ⟨hl, fn, h1, h2, h3, h4, h6⟩

/-- C9. On the signature `?` the code does not produce an input descriptor:
`islower` is false for the character, so the wildcard descriptor gets the
output direction, `fn_arg_count` counts no input and one output, and the
same holds for the wildcard of `i?`. -/
theorem new_fn_wildcard_is_output :
    new_fn ⟨0, ['?']⟩ = .ok ⟨0, [⟨none, ARG_OUTPUT⟩]⟩ ∧
    fn_arg_count ⟨0, [⟨none, ARG_OUTPUT⟩]⟩ ARG_INPUT = 0 ∧
    fn_arg_count ⟨0, [⟨none, ARG_OUTPUT⟩]⟩ ARG_OUTPUT = 1 ∧
    new_fn ⟨0, ['i', '?']⟩ = .ok ⟨0, [⟨some CT_INT, ARG_INPUT⟩, ⟨none, ARG_OUTPUT⟩]⟩ := by
  refine ⟨by rfl, by rfl, by rfl, by rfl⟩

/-! ### Argument validation -/

theorem stack_get_nth_loop_eq (rev : List cell_t) (n : Nat) :
    stack_get_nth_loop rev rev.length n
      = if n < rev.length then some (rev.length - 1 - n) else none := by
  induction rev generalizing n with
  | nil => simp [stack_get_nth_loop]
  | cons c rest ih =>
    cases n with
    | zero => simp [stack_get_nth_loop]
    | succ m =>
      simp only [stack_get_nth_loop, List.length_cons, Nat.add_sub_cancel, ih m]
      by_cases h : m < rest.length
      · simp [h]; omega
      · simp [h]

theorem stack_get_nth_eq (stack : List cell_t) (n : Nat) :
    stack_get_nth stack n = if n < stack.length then some (stack.length - 1 - n) else none := by
  unfold stack_get_nth
  cases stack with
  | nil => simp
  | cons c rest =>
    have h := stack_get_nth_loop_eq (c :: rest).reverse n
    rw [List.length_reverse] at h
    simp only [List.isEmpty_cons, Bool.false_eq_true, if_false]
    exact h




theorem count_args_input (as : List fn_arg_t)
    (h : ∀ a ∈ as, a.flags = ARG_INPUT ∨ a.flags = ARG_OUTPUT) :
    count_args ARG_INPUT as = (input_args as).length := by
  induction as with
  | nil => rfl
  | cons a rest ih =>
    have ih1 := ih (fun b hb => h b (List.mem_cons_of_mem _ hb))
    rcases h a (List.mem_cons_self _ _) with ha | ha
    · have e1 : a.flags &&& ARG_INPUT = 1 := by rw [ha]; rfl
      simp only [count_args, e1, input_args, List.filter_cons, ha, decide_True, if_true,
        List.length_cons]
      simp only [input_args] at ih1
      rw [ih1, if_pos (by decide)]
      omega
    · have e1 : a.flags &&& ARG_INPUT = 0 := by rw [ha]; rfl
      have e2 : a.flags ≠ ARG_INPUT := by rw [ha]; decide
      simp [count_args, input_args, e1, e2, List.filter_cons]
      simpa [input_args] using ih1

theorem check_args_loop_eq (interp : tpmi_t) (key : List Char) (as : List fn_arg_t) (p i : Nat)
    (hwf : ∀ a ∈ as, a.flags = ARG_INPUT ∨ a.flags = ARG_OUTPUT)
    (hc : count_args ARG_INPUT as + p ≤ interp.stack.length) :
    check_args_loop interp key as (cell_ptr interp.stack p) i =
      .ok (match first_mismatch (input_args as) (interp.stack.drop p) i with
        | none => (true, interp)
        | some (j, t, u) => (false, ERROR interp (.type_mismatch key j t.name u.name))) := by
  induction as generalizing p i with
  | nil => simp [check_args_loop, input_args, first_mismatch]
  | cons a rest ih =>
    have hwf1 : ∀ b ∈ rest, b.flags = ARG_INPUT ∨ b.flags = ARG_OUTPUT :=
      fun b hb => hwf b (List.mem_cons_of_mem _ hb)
    rcases hwf a (List.mem_cons_self _ _) with ha | ha
    · have e0 : a.flags ≠ 0 := by rw [ha]; decide
      have e1 : a.flags &&& ARG_INPUT ≠ 0 := by rw [ha]; decide
      have e2 : a.flags &&& ARG_INPUT = 1 := by rw [ha]; rfl
      have hc1 : count_args ARG_INPUT rest + (p + 1) ≤ interp.stack.length := by
        simp [count_args, e2] at hc; omega
      have hp : p < interp.stack.length := by omega
      have hptr : cell_ptr interp.stack p = some p := by simp [cell_ptr, hp]
      have hnext : CELL_NEXT interp.stack p = cell_ptr interp.stack (p + 1) := rfl
      have hdrop : interp.stack.drop p = interp.stack[p] :: interp.stack.drop (p + 1) :=
        List.drop_eq_getElem_cons hp
      have hget : interp.stack[p]? = some interp.stack[p] := List.getElem?_eq_getElem hp
      have hin : input_args (a :: rest) = a :: input_args rest := by
        simp [input_args, List.filter_cons, ha]
      rw [hin, hdrop]
      have hat : cell_at interp.stack (cell_ptr interp.stack p) = .ok (p, interp.stack[p]) := by
        simp [cell_at, hptr, hget]
      rw [check_args_loop]
      simp only [e0, if_false, e1, if_true, hat, hnext, ne_eq, not_false_eq_true]
      cases hty : a.type with
      | none => simp only [first_mismatch, arg_mismatch, hty]; exact ih (p + 1) (i + 1) hwf1 hc1
      | some t =>
        simp only [first_mismatch, arg_mismatch, hty]
        by_cases hne : t = interp.stack[p].type
        · simp only [hne, not_true_eq_false, if_false, ne_eq]
          exact ih (p + 1) (i + 1) hwf1 hc1
        · simp [hne]
    · have e0 : a.flags ≠ 0 := by rw [ha]; decide
      have e1 : a.flags &&& ARG_INPUT = 0 := by rw [ha]; rfl
      have hc1 : count_args ARG_INPUT rest + p ≤ interp.stack.length := by
        simp [count_args, e1] at hc; omega
      have e2 : a.flags ≠ ARG_INPUT := by rw [ha]; decide
      have hin : input_args (a :: rest) = input_args rest := by
        simp [input_args, List.filter_cons, e2]
      rw [hin, check_args_loop]
      simp only [e0, if_false, e1, ne_eq, not_true_eq_false]
      exact ih p i hwf1 hc1

theorem check_args_loop_false (interp : tpmi_t) (key : List Char) (as : List fn_arg_t)
    (stk_arg : Option Nat) (i : Nat) (interp1 : tpmi_t)
    (h : check_args_loop interp key as stk_arg i = .ok (false, interp1)) :
    ∃ j e a, interp1 = ERROR interp (.type_mismatch key j e a) := by
  induction as generalizing stk_arg i with
  | nil => simp [check_args_loop] at h
  | cons arg rest ih =>
    rw [check_args_loop] at h
    split at h
    · simp at h
    · split at h
      · split at h
        · simp at h
        · split at h
          · rename_i expected actual _
            simp only [Except.ok.injEq, Prod.mk.injEq, true_and] at h
            exact ⟨i, expected, actual, h.symm⟩
          · exact ih _ _ h
      · exact ih _ _ h

theorem first_mismatch_none (ins : List fn_arg_t) (ops : List cell_t) (i : Nat) :
    first_mismatch ins ops i = none ↔
      ∀ (j : Nat) (a : fn_arg_t) (c : cell_t),
        ins[j]? = some a → ops[j]? = some c → arg_matches a c := by
  induction ins generalizing ops i with
  | nil => simp [first_mismatch]
  | cons a as ih =>
    cases ops with
    | nil => simp [first_mismatch]
    | cons c cs =>
      have key : (∀ (j : Nat) (a' : fn_arg_t) (c' : cell_t),
            (a :: as)[j]? = some a' → (c :: cs)[j]? = some c' → arg_matches a' c') ↔
          arg_matches a c ∧ ∀ (j : Nat) (a' : fn_arg_t) (c' : cell_t),
            as[j]? = some a' → cs[j]? = some c' → arg_matches a' c' := by
        constructor
        · intro h
          exact ⟨h 0 a c (by simp) (by simp), fun j a' c' ha hc => h (j + 1) a' c' (by simpa using ha) (by simpa using hc)⟩
        · rintro ⟨h0, hs⟩ j a' c' ha hc
          cases j with
          | zero =>
            simp only [List.getElem?_cons_zero, Option.some.injEq] at ha hc
            subst ha; subst hc; exact h0
          | succ j => exact hs j a' c' (by simpa using ha) (by simpa using hc)
      rw [key, ← ih cs (i + 1)]
      cases hty : a.type with
      | none => simp [first_mismatch, hty, arg_matches]
      | some t =>
        by_cases hne : t = c.type
        · simp [first_mismatch, hty, arg_matches, hne]
        · simp [first_mismatch, hty, arg_matches, hne]

theorem first_mismatch_at (ins : List fn_arg_t) (ops : List cell_t) (i j : Nat)
    (a : fn_arg_t) (c : cell_t) (ha : ins[j]? = some a) (hc : ops[j]? = some c)
    (hbad : ¬ arg_matches a c)
    (hprev : ∀ j', j' < j → ∀ (a' : fn_arg_t) (c' : cell_t),
      ins[j']? = some a' → ops[j']? = some c' → arg_matches a' c') :
    ∃ t, a.type = some t ∧ first_mismatch ins ops i = some (i + j, t, c.type) := by
  induction ins generalizing ops i j with
  | nil => simp at ha
  | cons a0 as ih =>
    cases ops with
    | nil => simp at hc
    | cons c0 cs =>
      cases j with
      | zero =>
        simp only [List.getElem?_cons_zero, Option.some.injEq] at ha hc
        subst ha; subst hc
        cases hty : a0.type with
        | none => exact absurd (Or.inl hty) hbad
        | some t =>
          have hne : t ≠ c0.type := fun h => hbad (Or.inr (by rw [hty, h]))
          exact ⟨t, rfl, by simp [first_mismatch, hty, hne]⟩
      | succ j =>
        have h0 : arg_matches a0 c0 := hprev 0 (Nat.succ_pos _) a0 c0 (by simp) (by simp)
        obtain ⟨t, ht, hfm⟩ := ih cs (i + 1) j (by simpa using ha) (by simpa using hc)
          (fun j' hj' a' c' ha' hc' =>
            hprev (j' + 1) (Nat.succ_lt_succ hj') a' c' (by simpa using ha') (by simpa using hc'))
        refine ⟨t, ht, ?_⟩
        have e : i + 1 + j = i + (j + 1) := by omega
        rcases h0 with h0 | h0
        · simp [first_mismatch, h0, hfm, e]
        · simp [first_mismatch, h0, hfm, e]

/-- C3. Arity check of `check_func_args` for a Builtin or Foreign word with
`k` input descriptors on a stack of depth `d`: it fails with the arity
message (expected `k`, actual `d`) exactly when `0 < k` and `d < k`; then
the dispatch of the word returns the error status whatever the native
routines are, with the stack unchanged; with `k = 0` it passes on every
stack. -/
theorem check_func_args_arity (interp : tpmi_t) (entry : entry_t) (word : word_t) (fn : fn_t)
    (hw : entry.word = some word) (hf : word.func = some fn)
    (ht : word.type = WT_BUILTIN ∨ word.type = WT_CFUNC) :
    ((0 < fn_arg_count fn ARG_INPUT ∧ interp.stack.length < fn_arg_count fn ARG_INPUT) ↔
      ∃ ai, check_func_args interp entry =
        .ok (false, ERROR interp
          (.expected_args entry.key (fn_arg_count fn ARG_INPUT) interp.stack.length), ai)) ∧
    (0 < fn_arg_count fn ARG_INPUT ∧ interp.stack.length < fn_arg_count fn ARG_INPUT →
      ∀ (nat : natives_t) (fuel : Nat),
        eval_word nat fuel interp entry =
          .ok (TPMI_ERROR, ERROR interp
            (.expected_args entry.key (fn_arg_count fn ARG_INPUT) interp.stack.length)) ∧
        (ERROR interp
          (.expected_args entry.key (fn_arg_count fn ARG_INPUT) interp.stack.length)).stack
          = interp.stack) ∧
    (fn_arg_count fn ARG_INPUT = 0 →
      check_func_args interp entry = .ok (true, interp, ⟨0, none⟩)) := by
  have hfail : 0 < fn_arg_count fn ARG_INPUT ∧ interp.stack.length < fn_arg_count fn ARG_INPUT →
      check_func_args interp entry =
        .ok (false, ERROR interp
          (.expected_args entry.key (fn_arg_count fn ARG_INPUT) interp.stack.length),
          ⟨fn_arg_count fn ARG_INPUT, none⟩) := by
    rintro ⟨hk, hd⟩
    have h0 : fn_arg_count fn ARG_INPUT ≠ 0 := by omega
    have hn : ¬ (fn_arg_count fn ARG_INPUT - 1 < interp.stack.length) := by omega
    simp [check_func_args, hw, hf, h0, stack_get_nth_eq, hn]
  refine ⟨⟨fun h => ⟨_, hfail h⟩, ?_⟩, ?_, ?_⟩
  · rintro ⟨ai, h⟩
    by_cases h0 : fn_arg_count fn ARG_INPUT = 0
    · simp [check_func_args, hw, hf, h0] at h
    · by_cases hd : interp.stack.length < fn_arg_count fn ARG_INPUT
      · exact ⟨by omega, hd⟩
      · exfalso
        have hn : fn_arg_count fn ARG_INPUT - 1 < interp.stack.length := by omega
        simp only [check_func_args, hw, hf, h0, if_false, stack_get_nth_eq, hn, if_true] at h
        split at h
        · simp at h
        · rename_i b interp1 hloop
          simp only [Except.ok.injEq, Prod.mk.injEq] at h
          obtain ⟨hb, hI, _⟩ := h
          subst hb
          obtain ⟨j, e, a, hj⟩ := check_args_loop_false _ _ _ _ _ _ hloop
          rw [hj] at hI
          simp [ERROR] at hI
  · intro h nat fuel
    refine ⟨?_, rfl⟩
    rcases ht with ht | ht <;> simp [eval_word, eval_word_with, hw, ht, hfail h]
  · intro h0
    simp [check_func_args, hw, hf, h0]

theorem check_func_args_eq (interp : tpmi_t) (entry : entry_t) (word : word_t) (fn : fn_t)
    (hw : entry.word = some word) (hf : word.func = some fn)
    (hwf : ∀ a ∈ fn.args, a.flags = ARG_INPUT ∨ a.flags = ARG_OUTPUT)
    (hk : 0 < fn_arg_count fn ARG_INPUT)
    (hd : fn_arg_count fn ARG_INPUT ≤ interp.stack.length) :
    check_func_args interp entry =
      .ok (match first_mismatch (input_args fn.args)
          (interp.stack.drop (interp.stack.length - fn_arg_count fn ARG_INPUT)) 0 with
        | none => (true, interp,
            ⟨fn_arg_count fn ARG_INPUT, some (interp.stack.length - fn_arg_count fn ARG_INPUT)⟩)
        | some (j, t, u) => (false, ERROR interp (.type_mismatch entry.key j t.name u.name),
            ⟨fn_arg_count fn ARG_INPUT, some (interp.stack.length - fn_arg_count fn ARG_INPUT)⟩)) := by
  have h0 : fn_arg_count fn ARG_INPUT ≠ 0 := by omega
  have hn : fn_arg_count fn ARG_INPUT - 1 < interp.stack.length := by omega
  have hpos : interp.stack.length - 1 - (fn_arg_count fn ARG_INPUT - 1)
      = interp.stack.length - fn_arg_count fn ARG_INPUT := by omega
  have hptr : some (interp.stack.length - fn_arg_count fn ARG_INPUT)
      = cell_ptr interp.stack (interp.stack.length - fn_arg_count fn ARG_INPUT) := by
    have : interp.stack.length - fn_arg_count fn ARG_INPUT < interp.stack.length := by omega
    simp [cell_ptr, this]
  have hloop := check_args_loop_eq interp entry.key fn.args
    (interp.stack.length - fn_arg_count fn ARG_INPUT) 0 hwf
    (by simp only [fn_arg_count] at hd ⊢; omega)
  simp only [check_func_args, hw, hf, h0, if_false, stack_get_nth_eq, hn, if_true, hpos]
  rw [hptr, hloop]
  cases first_mismatch (input_args fn.args)
      (interp.stack.drop (interp.stack.length - fn_arg_count fn ARG_INPUT)) 0 with
  | none => rfl
  | some r => rfl

/-- C4. Type check of `check_func_args` for a word with `k > 0` input
descriptors (every descriptor being an input or an output) on a stack of
depth `d ≥ k`: it passes exactly when every input descriptor `j`, counted in
signature order, is the wildcard or has the type of the cell at depth
`k - 1 - j`; otherwise it fails with the message for the least index `j`
that does not match, naming the descriptor type and the cell type.  The
stack is never changed. -/
theorem check_func_args_types (interp : tpmi_t) (entry : entry_t) (word : word_t) (fn : fn_t)
    (hw : entry.word = some word) (hf : word.func = some fn)
    (hwf : ∀ a ∈ fn.args, a.flags = ARG_INPUT ∨ a.flags = ARG_OUTPUT)
    (hk : 0 < fn_arg_count fn ARG_INPUT)
    (hd : fn_arg_count fn ARG_INPUT ≤ interp.stack.length) :
    (input_args fn.args).length = fn_arg_count fn ARG_INPUT ∧
    ((∃ ai, check_func_args interp entry = .ok (true, interp, ai)) ↔
      ∀ (j : Nat) (a : fn_arg_t) (c : cell_t), (input_args fn.args)[j]? = some a →
        interp.stack[interp.stack.length - 1 - (fn_arg_count fn ARG_INPUT - 1 - j)]? = some c →
        arg_matches a c) ∧
    (∀ (j : Nat) (a : fn_arg_t) (c : cell_t), (input_args fn.args)[j]? = some a →
      interp.stack[interp.stack.length - 1 - (fn_arg_count fn ARG_INPUT - 1 - j)]? = some c →
      ¬ arg_matches a c →
      (∀ j', j' < j → ∀ (a' : fn_arg_t) (c' : cell_t), (input_args fn.args)[j']? = some a' →
        interp.stack[interp.stack.length - 1 - (fn_arg_count fn ARG_INPUT - 1 - j')]? = some c' →
        arg_matches a' c') →
      ∃ t ai, a.type = some t ∧ check_func_args interp entry =
        .ok (false, ERROR interp (.type_mismatch entry.key j t.name c.type.name), ai)) ∧
    (∃ b interp1 ai, check_func_args interp entry = .ok (b, interp1, ai) ∧
      interp1.stack = interp.stack) := by
  have hlen : (input_args fn.args).length = fn_arg_count fn ARG_INPUT :=
    (count_args_input fn.args hwf).symm
  have heq := check_func_args_eq interp entry word fn hw hf hwf hk hd
  -- operands: the cells from position `d - k` on
  have hops : ∀ (j : Nat), j < fn_arg_count fn ARG_INPUT →
      (interp.stack.drop (interp.stack.length - fn_arg_count fn ARG_INPUT))[j]?
        = interp.stack[interp.stack.length - 1 - (fn_arg_count fn ARG_INPUT - 1 - j)]? := by
    intro j hj
    rw [List.getElem?_drop]
    congr 1
    omega
  have hj_lt : ∀ (j : Nat) (a : fn_arg_t), (input_args fn.args)[j]? = some a →
      j < fn_arg_count fn ARG_INPUT := by
    intro j a ha
    rw [← hlen]
    exact (List.getElem?_eq_some_iff.1 ha).1
  refine ⟨hlen, ⟨?_, ?_⟩, ?_, ?_⟩
  · rintro ⟨ai, h⟩ j a c ha hc
    rw [heq] at h
    cases hfm : first_mismatch (input_args fn.args)
        (interp.stack.drop (interp.stack.length - fn_arg_count fn ARG_INPUT)) 0 with
    | none =>
      exact (first_mismatch_none _ _ 0).1 hfm j a c ha (by rw [hops j (hj_lt j a ha)]; exact hc)
    | some r =>
      rw [hfm] at h
      simp at h
  · intro h
    have hfm : first_mismatch (input_args fn.args)
        (interp.stack.drop (interp.stack.length - fn_arg_count fn ARG_INPUT)) 0 = none :=
      (first_mismatch_none _ _ 0).2 (fun j a c ha hc =>
        h j a c ha (by rw [← hops j (hj_lt j a ha)]; exact hc))
    rw [heq, hfm]
    exact ⟨_, rfl⟩
  · intro j a c ha hc hbad hprev
    obtain ⟨t, ht, hfm⟩ := first_mismatch_at (input_args fn.args)
      (interp.stack.drop (interp.stack.length - fn_arg_count fn ARG_INPUT)) 0 j a c ha
      (by rw [hops j (hj_lt j a ha)]; exact hc) hbad
      (fun j' hj' a' c' ha' hc' =>
        hprev j' hj' a' c' ha' (by rw [← hops j' (hj_lt j' a' ha')]; exact hc'))
    refine ⟨t, ⟨fn_arg_count fn ARG_INPUT,
      some (interp.stack.length - fn_arg_count fn ARG_INPUT)⟩, ht, ?_⟩
    rw [heq, hfm]
    simp
  · rw [heq]
    cases first_mismatch (input_args fn.args)
        (interp.stack.drop (interp.stack.length - fn_arg_count fn ARG_INPUT)) 0 with
    | none => exact ⟨_, _, _, rfl, rfl⟩
    | some r => exact ⟨_, _, _, rfl, rfl⟩

/-! ### Foreign calls -/

theorem cfunc_output_cell_ok (t : cell_type_t) (h : t ∈ output_types) :
    ∃ c, cfunc_output_cell (some t) = .ok c ∧ c.type = t := by
  simp only [output_types, List.mem_cons, List.mem_singleton, List.not_mem_nil, or_false] at h
  rcases h with rfl | rfl | rfl | rfl <;> exact ⟨_, rfl, rfl⟩

theorem cfunc_build_eq (orig : List cell_t) (as : List fn_arg_t) (i : Nat) (st : call_t)
    (pushed : List cell_t)
    (hwf : cfunc_wf as)
    (hst : st.stack = orig ++ pushed)
    (hk : (input_args as).length ≤ orig.length)
    (harg : 0 < (input_args as).length → st.arg = some (orig.length - (input_args as).length)) :
    ∃ arg', cfunc_build as i st = .ok
      ⟨orig ++ pushed ++ fresh_cells as, arg',
       st.slots ++ call_slots as (orig.drop (orig.length - (input_args as).length)),
       st.outs ++ out_positions i (orig.length + pushed.length) as⟩ := by
  induction as generalizing i st pushed with
  | nil =>
    refine ⟨st.arg, ?_⟩
    simp [cfunc_build, fresh_cells, call_slots, out_positions, ← hst]
  | cons a rest ih =>
    have hwf1 : cfunc_wf rest := fun b hb => hwf b (List.mem_cons_of_mem _ hb)
    rcases hwf a (List.mem_cons_self _ _) with ha | ⟨ha, t, ht, hty⟩
    · -- input descriptor
      have e1 : a.flags &&& ARG_INPUT ≠ 0 := by rw [ha]; decide
      have e2 : a.flags ≠ ARG_OUTPUT := by rw [ha]; decide
      have hin : input_args (a :: rest) = a :: input_args rest := by
        simp [input_args, List.filter_cons, ha]
      rw [hin] at hk harg ⊢
      simp only [List.length_cons] at hk harg ⊢
      have hp : orig.length - ((input_args rest).length + 1) < orig.length := by omega
      have harg0 := harg (Nat.succ_pos _)
      have hget : st.stack[orig.length - ((input_args rest).length + 1)]?
          = some orig[orig.length - ((input_args rest).length + 1)] := by
        rw [hst, List.getElem?_append_left hp, List.getElem?_eq_getElem hp]
      have hdrop : orig.drop (orig.length - ((input_args rest).length + 1))
          = orig[orig.length - ((input_args rest).length + 1)]
            :: orig.drop (orig.length - (input_args rest).length) := by
        rw [List.drop_eq_getElem_cons hp]
        congr 2
        omega
      obtain ⟨arg', h⟩ := ih (i + 1)
        { st with arg := CELL_NEXT st.stack (orig.length - ((input_args rest).length + 1)),
                  slots := st.slots ++ [orig[orig.length - ((input_args rest).length + 1)].val] }
        pushed hwf1 hst (by omega)
        (by
          intro hpos
          have hlt : orig.length - ((input_args rest).length + 1) + 1 < st.stack.length := by
            rw [hst, List.length_append]; omega
          simp only [CELL_NEXT, hlt, if_true]
          congr 1
          omega)
      refine ⟨arg', ?_⟩
      rw [cfunc_build]
      simp only [e1, ne_eq, not_false_eq_true, if_true, harg0, hget, h]
      have hio : ¬ (ARG_INPUT = ARG_OUTPUT) := by decide
      simp [fresh_cells, call_slots, ha, hdrop, out_positions, hio]
    · -- output descriptor
      have e1 : a.flags &&& ARG_INPUT = 0 := by rw [ha]; rfl
      have e2 : a.flags ≠ ARG_INPUT := by rw [ha]; decide
      have hin : input_args (a :: rest) = input_args rest := by
        simp [input_args, List.filter_cons, e2]
      rw [hin] at hk harg ⊢
      obtain ⟨c, hc, _⟩ := cfunc_output_cell_ok t ht
      rw [← hty] at hc
      obtain ⟨arg', h⟩ := ih (i + 1)
        { st with stack := STACK_PUSH st.stack c, slots := st.slots ++ [c.val],
                  outs := st.outs ++ [(i, st.stack.length)] }
        (pushed ++ [c]) hwf1 (by simp [STACK_PUSH, hst]) hk harg
      refine ⟨arg', ?_⟩
      rw [cfunc_build]
      simp only [e1, ne_eq, not_true_eq_false, if_false, hc, h]
      have hio : ¬ (ARG_OUTPUT = ARG_INPUT) := by decide
      simp [fresh_cells, ha, hc, call_slots, output_init, out_positions, hst, hio]
      rw [Nat.add_assoc]


theorem modify_append_cons (f : cell_t → cell_t) (pre : List cell_t) (c : cell_t)
    (post : List cell_t) :
    (pre ++ c :: post).modify f pre.length = pre ++ f c :: post := by
  induction pre with
  | nil => simp
  | cons x xs ih => simp [ih]

theorem eraseIdx_append_cons (pre : List cell_t) (c : cell_t) (post : List cell_t) :
    (pre ++ c :: post).eraseIdx pre.length = pre ++ post := by
  induction pre with
  | nil => simp
  | cons x xs ih => simp [ih]

theorem getElem?_append_cons (pre : List cell_t) (c : cell_t) (post : List cell_t) :
    (pre ++ c :: post)[pre.length]? = some c := by
  induction pre with
  | nil => simp
  | cons x xs ih => simpa using ih

theorem cfunc_call_eq (write : Nat → Option payload_t) (as : List fn_arg_t) (i : Nat)
    (pre : List cell_t) (hwf : cfunc_wf as) :
    cfunc_call write (out_positions i pre.length as) (pre ++ fresh_cells as)
      = if stores_null write i as = true then .error .null_deref
        else .ok (pre ++ output_cells write i as) := by
  induction as generalizing i pre with
  | nil => simp [out_positions, fresh_cells, output_cells, cfunc_call, stores_null]
  | cons a rest ih =>
    have hwf1 : cfunc_wf rest := fun b hb => hwf b (List.mem_cons_of_mem _ hb)
    rcases hwf a (List.mem_cons_self _ _) with ha | ⟨ha, t, ht, hty⟩
    · have hio : ¬ (ARG_INPUT = ARG_OUTPUT) := by decide
      simp only [out_positions, fresh_cells, output_cells, stores_null, ha, hio, if_false,
        decide_False, Bool.false_and, Bool.false_or]
      exact ih (i + 1) pre hwf1
    · obtain ⟨c, hc, hct⟩ := cfunc_output_cell_ok t ht
      have hstep : ∀ c1 : cell_t,
          cfunc_call write (out_positions (i + 1) (pre.length + 1) rest)
              (pre ++ c1 :: fresh_cells rest)
            = if stores_null write (i + 1) rest = true then .error .null_deref
              else .ok (pre ++ c1 :: output_cells write (i + 1) rest) := by
        intro c1
        have := ih (i + 1) (pre ++ [c1]) hwf1
        simpa only [List.length_append, List.length_singleton, List.append_assoc,
          List.singleton_append] using this
      simp only [out_positions, fresh_cells, output_cells, stores_null, ha, if_true, hty, hc,
        cfunc_call, decide_True, Bool.true_and, Option.some.injEq]
      simp only [output_types, List.mem_cons, List.mem_singleton, List.not_mem_nil,
        or_false] at ht
      cases hwr : write i with
      | none =>
        simp only [Option.isSome_none, Bool.and_false, Bool.false_or]
        rw [hstep c]
        rcases ht with rfl | rfl | rfl | rfl <;>
          · simp only [cfunc_output_cell, Except.ok.injEq] at hc
            subst hc
            rfl
      | some v =>
        simp only [Option.isSome_some, Bool.and_true, getElem?_append_cons]
        rcases ht with rfl | rfl | rfl | rfl
        · simp only [cfunc_output_cell, Except.ok.injEq] at hc
          subst hc
          simp [cell_int]
        · simp only [cfunc_output_cell, Except.ok.injEq] at hc
          subst hc
          simp [cell_float]
        · simp only [cfunc_output_cell, Except.ok.injEq] at hc
          subst hc
          simp only [cell_mono, modify_append_cons, hstep]
          simp [output_val]
        · simp only [cfunc_output_cell, Except.ok.injEq] at hc
          subst hc
          simp only [cell_color, modify_append_cons, hstep]
          simp [output_val]

theorem cfunc_remove_eq (pre mid post : List cell_t) (arg : Option Nat)
    (harg : 0 < mid.length → arg = some pre.length) :
    cfunc_remove (pre ++ mid ++ post) arg mid.length = .ok (pre ++ post) := by
  induction mid generalizing arg with
  | nil => simp [cfunc_remove]
  | cons c rest ih =>
    have h0 := harg (by simp)
    subst h0
    simp only [List.length_cons, cfunc_remove, List.append_assoc, List.cons_append]
    rw [eraseIdx_append_cons]
    have := ih ((CELL_NEXT (pre ++ c :: (rest ++ post)) pre.length).map (fun q => q - 1))
      (by
        intro hpos
        have hlt : pre.length + 1 < (pre ++ c :: (rest ++ post)).length := by
          simp only [List.length_append, List.length_cons]; omega
        simp only [CELL_NEXT, hlt, if_true, Option.map_some', Nat.add_sub_cancel])
    simpa using this

theorem count_args_all (as : List fn_arg_t) (hwf : cfunc_wf as) :
    count_args (ARG_INPUT ||| ARG_OUTPUT) as = as.length := by
  induction as with
  | nil => rfl
  | cons a rest ih =>
    have ih1 := ih (fun b hb => hwf b (List.mem_cons_of_mem _ hb))
    rcases hwf a (List.mem_cons_self _ _) with ha | ⟨ha, _⟩
    · have e : a.flags &&& (ARG_INPUT ||| ARG_OUTPUT) ≠ 0 := by rw [ha]; decide
      simp only [count_args, e, ne_eq, not_false_eq_true, if_true, ih1, List.length_cons]
      omega
    · have e : a.flags &&& (ARG_INPUT ||| ARG_OUTPUT) ≠ 0 := by rw [ha]; decide
      simp only [count_args, e, ne_eq, not_false_eq_true, if_true, ih1, List.length_cons]
      omega

theorem output_cells_length (write : Nat → Option payload_t) (as : List fn_arg_t) (i : Nat)
    (hwf : cfunc_wf as) :
    (output_cells write i as).length = count_args ARG_OUTPUT as := by
  induction as generalizing i with
  | nil => rfl
  | cons a rest ih =>
    have ih1 := ih (i + 1) (fun b hb => hwf b (List.mem_cons_of_mem _ hb))
    rcases hwf a (List.mem_cons_self _ _) with ha | ⟨ha, t, _, hty⟩
    · have hio : ¬ (ARG_INPUT = ARG_OUTPUT) := by decide
      have e : ARG_INPUT &&& ARG_OUTPUT = 0 := by rfl
      simp [output_cells, count_args, ha, hio, ih1, e]
    · have e : ARG_OUTPUT &&& ARG_OUTPUT ≠ 0 := by decide
      simp only [output_cells, ha, if_true, hty, List.length_cons, ih1, count_args]
      rw [if_pos e]
      omega

theorem cfunc_wf_flags (as : List fn_arg_t) (h : cfunc_wf as) :
    ∀ a ∈ as, a.flags = ARG_INPUT ∨ a.flags = ARG_OUTPUT := by
  intro a ha
  rcases h a ha with h1 | ⟨h1, _⟩
  · exact Or.inl h1
  · exact Or.inr h1

theorem check_func_args_ai (interp : tpmi_t) (entry : entry_t) (word : word_t) (fn : fn_t)
    (hw : entry.word = some word) (hf : word.func = some fn)
    (b : Bool) (interp1 : tpmi_t) (ai : arg_info_t)
    (hd : fn_arg_count fn ARG_INPUT ≤ interp.stack.length)
    (h : check_func_args interp entry = .ok (b, interp1, ai)) :
    ai.args = fn_arg_count fn ARG_INPUT ∧
    (0 < fn_arg_count fn ARG_INPUT →
      ai.first = some (interp.stack.length - fn_arg_count fn ARG_INPUT)) := by
  by_cases h0 : fn_arg_count fn ARG_INPUT = 0
  · simp only [check_func_args, hw, hf, h0, if_true, Except.ok.injEq, Prod.mk.injEq] at h
    obtain ⟨_, _, h3⟩ := h
    subst h3
    exact ⟨h0.symm, fun hk => absurd hk (by omega)⟩
  · have hn : fn_arg_count fn ARG_INPUT - 1 < interp.stack.length := by omega
    have hpos : interp.stack.length - 1 - (fn_arg_count fn ARG_INPUT - 1)
        = interp.stack.length - fn_arg_count fn ARG_INPUT := by omega
    simp only [check_func_args, hw, hf, h0, if_false, stack_get_nth_eq, hn, if_true, hpos] at h
    split at h
    · simp at h
    · simp only [Except.ok.injEq, Prod.mk.injEq] at h
      obtain ⟨_, _, h3⟩ := h
      subst h3
      exact ⟨rfl, fun _ => rfl⟩

/-- Stack effect of a Foreign call.  For a Foreign word whose signature has
`k` input and `m` output descriptors, in any interleaving, the outputs being
of type integer, float, mono or color, and a stack of depth `d ≥ k` that
passes `check_func_args`: when the native routine stores through the pointer
of an integer or float output slot the run ends in a fault; otherwise the
dispatch returns `TPMI_OK` and leaves the bottom `d - k` cells of the stack
followed by the output cells in signature order. -/
theorem eval_word_cfunc_eq (nat : natives_t) (fuel : Nat)
    (interp : tpmi_t) (entry : entry_t) (word : word_t) (fn : fn_t)
    (hw : entry.word = some word) (ht : word.type = WT_CFUNC) (hf : word.func = some fn)
    (hwf : cfunc_wf fn.args)
    (hd : fn_arg_count fn ARG_INPUT ≤ interp.stack.length)
    (hpass : ∃ ai, check_func_args interp entry = .ok (true, interp, ai)) :
    eval_word nat fuel interp entry
      = if stores_null (nat.cfunc fn.ptr (call_slots fn.args
            (interp.stack.drop (interp.stack.length - fn_arg_count fn ARG_INPUT)))) 0 fn.args
          = true then .error .null_deref
        else .ok (TPMI_OK, { interp with stack :=
          (interp.stack.take (interp.stack.length - fn_arg_count fn ARG_INPUT)
            ++ output_cells (nat.cfunc fn.ptr (call_slots fn.args
                (interp.stack.drop (interp.stack.length - fn_arg_count fn ARG_INPUT))))
              0 fn.args) }) := by
  obtain ⟨ai, hcheck⟩ := hpass
  obtain ⟨hai1, hai2⟩ := check_func_args_ai interp entry word fn hw hf true interp ai hd hcheck
  have hflags := cfunc_wf_flags fn.args hwf
  have hkin : fn_arg_count fn ARG_INPUT = (input_args fn.args).length :=
    count_args_input fn.args hflags
  have hn : fn_arg_count fn (ARG_INPUT ||| ARG_OUTPUT) = fn.args.length :=
    count_args_all fn.args hwf
  obtain ⟨arg1, hbuild⟩ := cfunc_build_eq interp.stack fn.args 0
    ⟨interp.stack, ai.first, [], []⟩ [] hwf (by simp) (by rw [← hkin]; exact hd)
    (by intro hpos; rw [← hkin] at hpos ⊢; exact hai2 hpos)
  rw [← hkin] at hbuild
  simp only [List.append_nil, List.nil_append, List.length_nil, Nat.add_zero] at hbuild
  have hlen_take : (interp.stack.take (interp.stack.length - fn_arg_count fn ARG_INPUT)).length
      = interp.stack.length - fn_arg_count fn ARG_INPUT := by
    rw [List.length_take]; omega
  have hlen_drop : (interp.stack.drop (interp.stack.length - fn_arg_count fn ARG_INPUT)).length
      = fn_arg_count fn ARG_INPUT := by
    rw [List.length_drop]; omega
  have hsplit : interp.stack
      = interp.stack.take (interp.stack.length - fn_arg_count fn ARG_INPUT)
        ++ interp.stack.drop (interp.stack.length - fn_arg_count fn ARG_INPUT) :=
    (List.take_append_drop _ _).symm
  have hcall := cfunc_call_eq
    (nat.cfunc fn.ptr (call_slots fn.args
      (interp.stack.drop (interp.stack.length - fn_arg_count fn ARG_INPUT))))
    fn.args 0 interp.stack hwf
  have hrem := cfunc_remove_eq
    (interp.stack.take (interp.stack.length - fn_arg_count fn ARG_INPUT))
    (interp.stack.drop (interp.stack.length - fn_arg_count fn ARG_INPUT))
    (output_cells (nat.cfunc fn.ptr (call_slots fn.args
      (interp.stack.drop (interp.stack.length - fn_arg_count fn ARG_INPUT)))) 0 fn.args)
    ai.first
    (by intro hpos; rw [hlen_drop] at hpos; rw [hlen_take]; exact hai2 hpos)
  rw [← hsplit, hlen_drop] at hrem
  by_cases hs : stores_null (nat.cfunc fn.ptr (call_slots fn.args
      (interp.stack.drop (interp.stack.length - fn_arg_count fn ARG_INPUT)))) 0 fn.args = true
  · rw [if_pos hs] at hcall
    simp only [eval_word, eval_word_with, hw, ht, hcheck, hf, hn, List.take_length, hbuild,
      hcall, hs, if_true]
  · rw [if_neg hs] at hcall
    simp only [eval_word, eval_word_with, hw, ht, hcheck, hf, hn, List.take_length, hbuild,
      hcall, hai1, hrem, hs]
    rfl

/-- C2. The signature iF on the stack `[integer(9), integer(5)]`.  Whatever
the native routine is, the dispatch of the Foreign word either ends in a
fault (the routine stores its result through the pointer of its output slot,
which is `NULL`) or leaves `[integer(9), float(0.0)]` (the routine stores
nothing): the float cell on top never holds a result of the routine.  With
the example routine, which stores `2.5`, the run ends in the fault.  An
output of type mono is delivered: the signature iM with the example routine
that stores the image content 7 leaves `[integer(9), mono(7)]`. -/
theorem eval_word_cfunc_result_not_delivered :
    (∀ (nat : natives_t) (fuel : Nat),
      eval_word nat fuel (ex_interp [cell_int 9, cell_int 5])
          ⟨['h', 'a', 'l', 'f'],
            some (ex_word WT_CFUNC 3 [⟨some CT_INT, ARG_INPUT⟩, ⟨some CT_FLOAT, ARG_OUTPUT⟩])⟩
        = .error .null_deref ∨
      eval_word nat fuel (ex_interp [cell_int 9, cell_int 5])
          ⟨['h', 'a', 'l', 'f'],
            some (ex_word WT_CFUNC 3 [⟨some CT_INT, ARG_INPUT⟩, ⟨some CT_FLOAT, ARG_OUTPUT⟩])⟩
        = .ok (TPMI_OK, ex_interp [cell_int 9, cell_float ⟨['0', '.', '0']⟩])) ∧
    eval_word ex_natives 0 (ex_interp [cell_int 9, cell_int 5])
        ⟨['h', 'a', 'l', 'f'],
          some (ex_word WT_CFUNC 3 [⟨some CT_INT, ARG_INPUT⟩, ⟨some CT_FLOAT, ARG_OUTPUT⟩])⟩
      = .error .null_deref ∧
    eval_word ex_natives 0 (ex_interp [cell_int 9, cell_int 5])
        ⟨['i', 'm', 'g'],
          some (ex_word WT_CFUNC 5 [⟨some CT_INT, ARG_INPUT⟩, ⟨some CT_MONO, ARG_OUTPUT⟩])⟩
      = .ok (TPMI_OK, ex_interp [cell_int 9, ⟨CT_MONO, .handle 7⟩]) := by
  refine ⟨?_, by decide, by decide⟩
  intro nat fuel
  rw [eval_word_cfunc_eq nat fuel (ex_interp [cell_int 9, cell_int 5])
    ⟨['h', 'a', 'l', 'f'],
      some (ex_word WT_CFUNC 3 [⟨some CT_INT, ARG_INPUT⟩, ⟨some CT_FLOAT, ARG_OUTPUT⟩])⟩
    (ex_word WT_CFUNC 3 [⟨some CT_INT, ARG_INPUT⟩, ⟨some CT_FLOAT, ARG_OUTPUT⟩])
    ⟨3, [⟨some CT_INT, ARG_INPUT⟩, ⟨some CT_FLOAT, ARG_OUTPUT⟩]⟩
    rfl rfl rfl (by decide) (by decide) ⟨⟨1, some 1⟩, by rfl⟩]
  split
  · exact Or.inl rfl
  · exact Or.inr rfl

/-- Witness of C3: a word of signature `if` (two inputs) on a stack of one
cell fails with expected 2, actual 1. -/
theorem check_func_args_arity_witness :
    eval_word ex_natives 0 (ex_interp [cell_int 5])
        ⟨['w'], some (ex_word WT_CFUNC 3 [⟨some CT_INT, ARG_INPUT⟩, ⟨some CT_FLOAT, ARG_INPUT⟩])⟩
      = .ok (TPMI_ERROR, ERROR (ex_interp [cell_int 5]) (.expected_args ['w'] 2 1)) :=
  ((check_func_args_arity (ex_interp [cell_int 5])
    ⟨['w'], some (ex_word WT_CFUNC 3 [⟨some CT_INT, ARG_INPUT⟩, ⟨some CT_FLOAT, ARG_INPUT⟩])⟩
    (ex_word WT_CFUNC 3 [⟨some CT_INT, ARG_INPUT⟩, ⟨some CT_FLOAT, ARG_INPUT⟩])
    ⟨3, [⟨some CT_INT, ARG_INPUT⟩, ⟨some CT_FLOAT, ARG_INPUT⟩]⟩
    rfl rfl (Or.inr rfl)).2.1 ⟨by decide, by decide⟩ ex_natives 0).1

/-- Witness of C4: a first input descriptor integer against a string cell
fails with index 0, expected integer, actual string. -/
theorem check_func_args_types_witness :
    ∃ ai, check_func_args (ex_interp [⟨CT_STRING, .chars ['a']⟩])
          ⟨['w'], some (ex_word WT_CFUNC 3 [⟨some CT_INT, ARG_INPUT⟩])⟩
        = .ok (false, ERROR (ex_interp [⟨CT_STRING, .chars ['a']⟩])
            (.type_mismatch ['w'] 0 "integer" "string"), ai) := by
  obtain ⟨t, ai, ht, h⟩ := (check_func_args_types (ex_interp [⟨CT_STRING, .chars ['a']⟩])
    ⟨['w'], some (ex_word WT_CFUNC 3 [⟨some CT_INT, ARG_INPUT⟩])⟩
    (ex_word WT_CFUNC 3 [⟨some CT_INT, ARG_INPUT⟩]) ⟨3, [⟨some CT_INT, ARG_INPUT⟩]⟩
    rfl rfl (by decide) (by decide) (by decide)).2.2.1 0 ⟨some CT_INT, ARG_INPUT⟩
    ⟨CT_STRING, .chars ['a']⟩ rfl rfl (by decide) (fun j' h => absurd h (Nat.not_lt_zero j'))
  cases ht
  exact ⟨ai, h⟩

/-! ### Tokenizer -/

theorem mem_blanks (c : Char) : c ∈ blanks ↔ is_blank c = true := by
  simp [blanks, is_blank, or_assoc]

theorem strspn_blanks (line : List Char) :
    line.drop (strspn line blanks) = line.dropWhile is_blank := by
  induction line with
  | nil => rfl
  | cons c cs ih =>
    by_cases h : is_blank c = true
    · have hm : c ∈ blanks := (mem_blanks c).2 h
      simp [strspn, hm, List.dropWhile_cons, h, ih]
    · have hm : c ∉ blanks := fun hm => h ((mem_blanks c).1 hm)
      simp [strspn, hm, List.dropWhile_cons, h]

theorem strcspn_blanks (line : List Char) :
    strcspn line blanks = (line.takeWhile (fun c => !is_blank c)).length := by
  induction line with
  | nil => rfl
  | cons c cs ih =>
    by_cases h : is_blank c = true
    · have hm : c ∈ blanks := (mem_blanks c).2 h
      simp [strcspn, hm, List.takeWhile_cons, h]
    · have hm : c ∉ blanks := fun hm => h ((mem_blanks c).1 hm)
      simp [strcspn, hm, List.takeWhile_cons, h, ih]

theorem strchr_eq (r : List Char) (ch : Char) :
    strchr r ch = if ch ∈ r then some (r.takeWhile (fun c => c != ch)).length else none := by
  induction r with
  | nil => rfl
  | cons c cs ih =>
    by_cases h : c = ch
    · subst h
      simp [strchr, List.takeWhile_cons]
    · have h' : ¬ ch = c := fun e => h e.symm
      by_cases hm : ch ∈ cs
      · simp [strchr, h, h', ih, hm, List.takeWhile_cons]
      · simp [strchr, h, h', ih, hm, List.takeWhile_cons]

theorem dropWhile_head_not_blank (line : List Char) (c : Char) (r : List Char)
    (h : line.dropWhile is_blank = c :: r) : is_blank c = false := by
  have := List.head_dropWhile_not is_blank line (by rw [h]; simp)
  simpa [h] using this

theorem length_dropWhile_blank_le (line : List Char) :
    (line.dropWhile is_blank).length ≤ line.length := by
  induction line with
  | nil => simp
  | cons c cs ih =>
    rw [List.dropWhile_cons]
    split
    · simp; omega
    · simp

theorem tpmi_compile_loop_eq (nat : natives_t) (fuel : Nat) (k : Nat) (interp : tpmi_t)
    (line : List Char) (status : tpmi_status_t) (n : Nat) (hk : line.length < k) :
    (tpmi_compile_loop nat fuel k interp line status n).map compile_t.eval
      = run_tokens nat fuel interp status (tokenize_loop k line).1 (tokenize_loop k line).2 := by
  induction k generalizing interp line status with
  | zero => omega
  | succ k ih =>
    rw [tpmi_compile_loop, tokenize_loop]
    simp only [strspn_blanks]
    have hle := length_dropWhile_blank_le line
    cases hs : line.dropWhile is_blank with
    | nil =>
      simp [token_len, strcspn, run_tokens, compile_t.eval, Except.map]
    | cons c r =>
      rw [hs] at hle
      simp only [List.length_cons] at hle
      by_cases hq : c = '"'
      · subst hq
        by_cases hm : '"' ∈ r
        · have hlen : token_len ('"' :: r)
              = some ((r.takeWhile (fun c => c != '"')).length + 2) := by
            simp [token_len, strchr_eq, hm]
          have hrec := ih
          simp only [hlen, hm, if_true]
          rw [if_neg (by omega)]
          simp only [run_tokens]
          cases htok : tpmi_compile_token nat fuel interp ('"' :: r)
              ((r.takeWhile (fun c => c != '"')).length + 2) with
          | error e => simp [Except.map]
          | ok res =>
            obtain ⟨st, interp1⟩ := res
            by_cases hst : st = TPMI_ERROR
            · simp [hst, Except.map, compile_t.eval]
            · simp only [hst, if_false]
              apply ih
              simp only [List.length_drop, List.length_cons]
              omega
        · have hlen : token_len ('"' :: r) = none := by
            simp [token_len, strchr_eq, hm]
          simp [hlen, hm, run_tokens, Except.map, compile_t.eval]
      · have hb : is_blank c = false := dropWhile_head_not_blank line c r hs
        have hlen : token_len (c :: r)
            = some (((c :: r).takeWhile (fun c => !is_blank c)).length) := by
          have : ¬ ((c :: r).head? = some '"') := by simpa using hq
          simp only [token_len, this, if_false, strcspn_blanks]
        have hpos : ((c :: r).takeWhile (fun c => !is_blank c)).length ≠ 0 := by
          simp [List.takeWhile_cons, hb]
        have hmatch : (match c :: r with
            | [] => (([] : List token_t), true)
            | '"' :: r =>
              if '"' ∈ r then
                let len := (r.takeWhile (fun c => c != '"')).length + 2
                let t := tokenize_loop k (('"' :: r).drop len)
                (⟨'"' :: r, len⟩ :: t.1, t.2)
              else ([], false)
            | c :: r =>
              let len := ((c :: r).takeWhile (fun c => !is_blank c)).length
              let t := tokenize_loop k ((c :: r).drop len)
              (⟨c :: r, len⟩ :: t.1, t.2))
            = (⟨c :: r, ((c :: r).takeWhile (fun c => !is_blank c)).length⟩
                :: (tokenize_loop k ((c :: r).drop
                      ((c :: r).takeWhile (fun c => !is_blank c)).length)).1,
               (tokenize_loop k ((c :: r).drop
                      ((c :: r).takeWhile (fun c => !is_blank c)).length)).2) := by
          split
          · rename_i heq; simp at heq
          · rename_i heq
            simp only [List.cons.injEq] at heq
            exact absurd heq.1 hq
          · rename_i heq
            simp only [List.cons.injEq] at heq
            obtain ⟨h1, h2⟩ := heq
            subst h1; subst h2
            rfl
        rw [hmatch]
        simp only [hlen]
        rw [if_neg hpos]
        simp only [run_tokens]
        cases htok : tpmi_compile_token nat fuel interp (c :: r)
            ((c :: r).takeWhile (fun c => !is_blank c)).length with
        | error e => simp [Except.map]
        | ok res =>
          obtain ⟨st, interp1⟩ := res
          by_cases hst : st = TPMI_ERROR
          · simp [hst, Except.map, compile_t.eval]
          · simp only [hst, if_false]
            apply ih
            simp only [List.length_drop]
            have : 0 < ((c :: r).takeWhile (fun c => !is_blank c)).length := by omega
            simp only [List.length_cons]
            omega

theorem tokenize_loop_fuel (k k' : Nat) (line : List Char)
    (hk : line.length < k) (hk' : line.length < k') :
    tokenize_loop k line = tokenize_loop k' line := by
  induction k generalizing k' line with
  | zero => omega
  | succ k ih =>
    cases k' with
    | zero => omega
    | succ k' =>
      have hle := length_dropWhile_blank_le line
      rw [tokenize_loop, tokenize_loop]
      split
      · rfl
      · rename_i r hs
        rw [hs] at hle
        simp only [List.length_cons] at hle
        split
        · have hlen : (List.drop ((r.takeWhile (fun c => c != '"')).length + 2) ('"' :: r)).length
              < line.length := by
            simp only [List.length_drop, List.length_cons]; omega
          simp only
          rw [ih k' (List.drop ((r.takeWhile (fun c => c != '"')).length + 2) ('"' :: r))
            (by omega) (by omega)]
        · rfl
      · rename_i c r _ hs
        rw [hs] at hle
        simp only [List.length_cons] at hle
        have hb : is_blank c = false := dropWhile_head_not_blank line c r hs
        have hpos : 0 < ((c :: r).takeWhile (fun c => !is_blank c)).length := by
          simp [List.takeWhile_cons, hb]
        have hlen : (List.drop ((c :: r).takeWhile (fun c => !is_blank c)).length (c :: r)).length
            < line.length := by
          simp only [List.length_drop, List.length_cons]; omega
        simp only
        rw [ih k' (List.drop ((c :: r).takeWhile (fun c => !is_blank c)).length (c :: r))
          (by omega) (by omega)]

/-- C5. Tokenization of a line by `tpmi_compile`: the tokens it processes
are those of the source grammar (white space skipped; a token that starts
with a double quote runs to the next double quote inclusive; any other token
is the maximal run of characters other than white space), each processed in
turn; a quote without closing quote fails after the tokens before it were
processed, with the rest of the line left alone; an empty token ends the
line with the status reached.  On the line `  12   "a b"  x` the tokens are
`12`, `"a b"` and `x`, read as integer 12, string `a b` and atom `x`. -/
theorem tpmi_compile_tokenizes :
    (∀ (nat : natives_t) (fuel : Nat) (interp : tpmi_t) (line : List Char),
      (tpmi_compile nat fuel interp line).map compile_t.eval
        = run_tokens nat fuel interp TPMI_OK (tokenize line).1 (tokenize line).2) ∧
    (tokenize "  12   \"a b\"  x".toList).1.map token_t.text
      = ["12".toList, "\"a b\"".toList, "x".toList] ∧
    (tokenize "  12   \"a b\"  x".toList).2 = true ∧
    (tokenize "  12   \"a b\"  x".toList).1.map (fun t => make_cell t.line t.len)
      = [⟨CT_INT, .i 12⟩, ⟨CT_STRING, .chars "a b".toList⟩, ⟨CT_ATOM, .chars "x".toList⟩] ∧
    (tokenize "12 \"a b".toList) = ([⟨"12 \"a b".toList, 2⟩], false) := by
  refine ⟨?_, by decide, by decide, by decide, by decide⟩
  intro nat fuel interp line
  exact tpmi_compile_loop_eq nat fuel (line.length + 1) interp line TPMI_OK 0 (Nat.lt_succ_self _)

/-! ### Classification, compilation and evaluation on concrete inputs -/

/-- C6. The token `0x` with nothing after it on the line is read as the
integer 0 although no hexadecimal numeral follows the prefix: `strtol`
converts nothing and leaves the end pointer at `str + 2`, which is
`str + span`.  The same holds for `0x` before a word that does not start
with a hexadecimal digit, while `0x` before ` 12` is an atom; `0x-5` is the
integer -5.  The witnesses of the claim hold: `42` and `0x2A` are the
integer 42 and `12abc` is an atom. -/
theorem make_cell_bare_hex_prefix :
    (tokenize "0x".toList) = ([⟨"0x".toList, 2⟩], true) ∧
    make_cell "0x".toList 2 = ⟨CT_INT, .i 0⟩ ∧
    make_cell "0x zz".toList 2 = ⟨CT_INT, .i 0⟩ ∧
    make_cell "0x 12".toList 2 = ⟨CT_ATOM, .chars "0x".toList⟩ ∧
    make_cell "0x-5".toList 4 = ⟨CT_INT, .i (-5)⟩ ∧
    make_cell "42".toList 2 = ⟨CT_INT, .i 42⟩ ∧
    make_cell "0x2A".toList 4 = ⟨CT_INT, .i 42⟩ ∧
    make_cell "12abc".toList 5 = ⟨CT_ATOM, .chars "12abc".toList⟩ := by
  refine ⟨by decide, by decide, by decide, by decide, by decide, by decide, by decide, by decide⟩

/-- C7. In Compile mode with the definition of `w` open, the token `foo`,
an atom with no word in the dictionary, is not appended to the body: the
code reads `dict_add(...)->word->immediate` through the `NULL` word pointer
of the entry and the run ends there.  A literal and an atom bound to a word
that is not immediate are appended, with need-more, and the witness of the
claim holds: on the stack `[7]` the immediate word `helper` runs while
`user` is compiled, leaving `[8]` and an empty body of `user`. -/
theorem compile_unbound_atom_null_deref :
    tpmi_compile ex_natives 1 (ex_interp []) ": w foo ;".toList = .error .null_deref ∧
    tpmi_compile ex_natives 1 (ex_interp []) ": w".toList
      = .ok ⟨TPMI_NEED_MORE, ex_open_w, none⟩ ∧
    dict_word ex_open_w.words "foo".toList = none ∧
    tpmi_compile_token ex_natives 1 ex_open_w "foo".toList 3 = .error .null_deref ∧
    tpmi_compile_token ex_natives 1 ex_open_w "12".toList 2
      = .ok (TPMI_NEED_MORE, { ex_open_w with
          words := ex_words ++ [⟨['w'], some ⟨WT_DEF, false, none, [⟨CT_INT, .i 12⟩]⟩⟩] }) ∧
    tpmi_compile_token ex_natives 1 ex_open_w "dup".toList 3
      = .ok (TPMI_NEED_MORE, { ex_open_w with
          words := ex_words ++
            [⟨['w'], some ⟨WT_DEF, false, none, [⟨CT_ATOM, .chars "dup".toList⟩]⟩⟩] }) ∧
    tpmi_compile ex_natives 2 (ex_interp [cell_int 7]) ": helper 1 + ;".toList
      = .ok ⟨TPMI_OK, { ex_helper_user [cell_int 7] with
          words := ex_words ++ [⟨['h', 'e', 'l', 'p', 'e', 'r'], some ⟨WT_DEF, false, none,
            [⟨CT_INT, .i 1⟩, ⟨CT_ATOM, .chars ['+']⟩]⟩⟩],
          curr_word := some ['h', 'e', 'l', 'p', 'e', 'r'] }, none⟩ ∧
    tpmi_compile ex_natives 2 { ex_helper_user [cell_int 7] with
          words := ex_words ++ [⟨['h', 'e', 'l', 'p', 'e', 'r'], some ⟨WT_DEF, false, none,
            [⟨CT_INT, .i 1⟩, ⟨CT_ATOM, .chars ['+']⟩]⟩⟩],
          curr_word := some ['h', 'e', 'l', 'p', 'e', 'r'] }
        "immediate : user helper ;".toList
      = .ok ⟨TPMI_OK, ex_helper_user [cell_int 8], none⟩ := by
  refine ⟨by decide, by decide, by decide, by decide, by decide, by decide, by decide, by decide⟩

/-- C10. Evaluating the atom `foo` when the dictionary has no entry of that
name does not return: `dict_find` gives `NULL` and `eval_cell` reads
`entry->word` through it.  When the entry exists and owns no word,
`eval_cell` returns the error status with the message naming the identifier
and the stack unchanged. -/
theorem eval_cell_absent_name_null_deref :
    dict_find ex_words "foo".toList = none ∧
    eval_cell ex_natives 1 (ex_interp [cell_int 5]) ⟨CT_ATOM, .chars "foo".toList⟩
      = .error .null_deref ∧
    eval_cell ex_natives 1
        { ex_interp [cell_int 5] with words := ex_words ++ [⟨"foo".toList, none⟩] }
        ⟨CT_ATOM, .chars "foo".toList⟩
      = .ok (TPMI_ERROR,
          { ex_interp [cell_int 5] with
            words := ex_words ++ [⟨"foo".toList, none⟩],
            errmsg := some (.unknown_identifier "foo".toList) }) := by
  refine ⟨by decide, by decide, by decide⟩

/-- C1. The inlining law fails for a body token that is a proper prefix of
`variable`: after `: v 1 ;` and `: w v ;`, evaluating `w` on the stack
`[5]` returns ok and pushes 1, while the token `v` itself is taken by
Evaluate mode for the reserved word `variable`: need-more, mode
DeclareVariable, stack unchanged.  The witness of the claim holds: after
`: sq dup * ;` both `sq` and `dup *` turn the stack `[5]` into `[25]`. -/
theorem inlining_fails_on_reserved_prefix :
    tpmi_compile ex_natives 2 (ex_interp [cell_int 5]) ": v 1 ;".toList
      = .ok ⟨TPMI_OK, { ex_v_w [cell_int 5] with
          words := ex_words ++ [⟨['v'], some ⟨WT_DEF, false, none, [⟨CT_INT, .i 1⟩]⟩⟩],
          curr_word := some ['v'] }, none⟩ ∧
    tpmi_compile ex_natives 2 { ex_v_w [cell_int 5] with
          words := ex_words ++ [⟨['v'], some ⟨WT_DEF, false, none, [⟨CT_INT, .i 1⟩]⟩⟩],
          curr_word := some ['v'] } ": w v ;".toList
      = .ok ⟨TPMI_OK, ex_v_w [cell_int 5], none⟩ ∧
    tpmi_compile ex_natives 2 (ex_v_w [cell_int 5]) "w".toList
      = .ok ⟨TPMI_OK, ex_v_w [cell_int 5, cell_int 1], none⟩ ∧
    tpmi_compile ex_natives 2 (ex_v_w [cell_int 5]) "v".toList
      = .ok ⟨TPMI_NEED_MORE, { ex_v_w [cell_int 5] with mode := TPMI_DEFVAR }, none⟩ ∧
    tpmi_compile ex_natives 2 (ex_interp [cell_int 5]) ": sq dup * ;".toList
      = .ok ⟨TPMI_OK, ex_sq [cell_int 5], none⟩ ∧
    tpmi_compile ex_natives 2 (ex_sq [cell_int 5]) "sq".toList
      = .ok ⟨TPMI_OK, ex_sq [cell_int 25], none⟩ ∧
    tpmi_compile ex_natives 2 (ex_sq [cell_int 5]) "dup *".toList
      = .ok ⟨TPMI_OK, ex_sq [cell_int 25], none⟩ ∧
    tpmi_compile ex_natives 2 (ex_interp [cell_int 5]) "dup *".toList
      = .ok ⟨TPMI_OK, ex_interp [cell_int 25], none⟩ := by
  refine ⟨by decide, by decide, by decide, by decide, by decide, by decide, by decide, by decide⟩

/-- C12. In DeclareVariable mode the atom `x`, a name with no word, does not
become a variable: the code writes `dict_add(...)->word->type` through the
`NULL` word pointer of the new entry and the run ends there, so the line
`variable x` never returns.  A name that owns a word is converted (`dup`
becomes a Variable word, ok, mode Evaluate), and a token that is not an atom
gives the error with the mode back at Evaluate. -/
theorem defvar_fresh_name_null_deref :
    dict_word ex_words ['x'] = none ∧
    tpmi_compile_token ex_natives 1 { ex_interp [] with mode := TPMI_DEFVAR } ['x'] 1
      = .error .null_deref ∧
    tpmi_compile ex_natives 1 (ex_interp []) "variable x".toList = .error .null_deref ∧
    tpmi_compile_token ex_natives 1 { ex_interp [] with mode := TPMI_DEFVAR } "dup".toList 3
      = .ok (TPMI_OK, { ex_interp [] with
          words := dict_set_word ex_words "dup".toList
            (some (ex_word WT_VAR 0 [⟨none, ARG_INPUT⟩])) }) ∧
    tpmi_compile_token ex_natives 1 { ex_interp [] with mode := TPMI_DEFVAR } "12".toList 2
      = .ok (TPMI_ERROR, ERROR (ex_interp []) .variable_expects_name) := by
  refine ⟨by decide, by decide, by decide, by decide, by decide⟩

/-- C13. In FunctionReference mode the atom `foo`, bound to no word, does
not give the error status: the code reads `dict_add(...)->word->type`
through the `NULL` word pointer of the new entry and the run ends there.
The other cases are as claimed: the Foreign word `half` is pushed with ok,
the Builtin `dup` and the literal `12` give the error with the stack
unchanged, and the mode is Evaluate afterwards. -/
theorem funcref_unbound_atom_null_deref :
    dict_word ex_words "foo".toList = none ∧
    tpmi_compile_token ex_natives 1 { ex_interp [cell_int 5] with mode := TPMI_FUNCREF }
        "foo".toList 3 = .error .null_deref ∧
    tpmi_compile ex_natives 1 (ex_interp [cell_int 5]) "' foo".toList = .error .null_deref ∧
    tpmi_compile_token ex_natives 1 { ex_interp [cell_int 5] with mode := TPMI_FUNCREF }
        "half".toList 4
      = .ok (TPMI_OK, ex_interp [cell_int 5, ⟨CT_ATOM, .chars "half".toList⟩]) ∧
    tpmi_compile_token ex_natives 1 { ex_interp [cell_int 5] with mode := TPMI_FUNCREF }
        "dup".toList 3
      = .ok (TPMI_ERROR, ERROR (ex_interp [cell_int 5]) .tick_expects_cfunc) ∧
    tpmi_compile_token ex_natives 1 { ex_interp [cell_int 5] with mode := TPMI_FUNCREF }
        "12".toList 2
      = .ok (TPMI_ERROR, ERROR (ex_interp [cell_int 5]) .tick_expects_cfunc) := by
  refine ⟨by decide, by decide, by decide, by decide, by decide, by decide⟩

/-- C15. Recognition of the reserved words in Evaluate mode is not exact:
the token `v` switches the mode to DeclareVariable and the token `imm` is
handled as the `immediate` directive (here it sets the flag of the current
word `w`), because `strncasecmp` compares only as many characters as the
token has.  The full words in any case, `:` and the tick are recognised,
and a longer identifier such as `variables` is evaluated as a word. -/
theorem reserved_word_prefix_recognised :
    tpmi_compile_token ex_natives 1 (ex_interp []) ['v'] 1
      = .ok (TPMI_NEED_MORE, { ex_interp [] with mode := TPMI_DEFVAR }) ∧
    tpmi_compile_token ex_natives 1 (ex_v_w []) "imm".toList 3
      = .ok (TPMI_OK, { ex_v_w [] with
          words := ex_words ++
            [⟨['v'], some ⟨WT_DEF, false, none, [⟨CT_INT, .i 1⟩]⟩⟩,
             ⟨['w'], some ⟨WT_DEF, true, none, [⟨CT_ATOM, .chars ['v']⟩]⟩⟩] }) ∧
    tpmi_compile_token ex_natives 1 (ex_v_w []) ['v'] 1
      = .ok (TPMI_NEED_MORE, { ex_v_w [] with mode := TPMI_DEFVAR }) ∧
    eval_cell ex_natives 1 (ex_v_w []) (make_cell ['v'] 1) = .ok (TPMI_OK, ex_v_w [cell_int 1]) ∧
    tpmi_compile_token ex_natives 1 (ex_interp []) "VARiable".toList 8
      = .ok (TPMI_NEED_MORE, { ex_interp [] with mode := TPMI_DEFVAR }) ∧
    tpmi_compile_token ex_natives 1 (ex_interp []) "Immediate".toList 9
      = .ok (TPMI_OK, ex_interp []) ∧
    tpmi_compile_token ex_natives 1 (ex_interp []) [':'] 1
      = .ok (TPMI_NEED_MORE, { ex_interp [] with mode := TPMI_COMPILE }) ∧
    tpmi_compile_token ex_natives 1 (ex_interp []) [Char.ofNat 39] 1
      = .ok (TPMI_NEED_MORE, { ex_interp [] with mode := TPMI_FUNCREF }) ∧
    tpmi_compile_token ex_natives 1 (ex_interp []) "variables".toList 9
      = eval_cell ex_natives 1 (ex_interp []) (make_cell "variables".toList 9) := by
  refine ⟨by decide, by decide, by decide, by decide, by decide, by decide, by decide,
    by decide, by decide⟩

/-- C18. The reported token index is not the position of the failing token:
on the line `5 +` with an empty stack the second token fails (the word `+`
expects two arguments, the stack has one), and the report names token 1.
The counter `n` keeps its initial value 0 for the whole line.  The status is
the error status, the message is the one of the failing token, and the
token `7` after the failing one in `5 + 7` is not processed. -/
theorem failure_report_always_token_one :
    (tokenize "5 +".toList).1.map token_t.text = [['5'], ['+']] ∧
    tpmi_compile_token ex_natives 1 (ex_interp []) "5 +".toList 1
      = .ok (TPMI_OK, ex_interp [cell_int 5]) ∧
    tpmi_compile ex_natives 1 (ex_interp []) "5 +".toList
      = .ok ⟨TPMI_ERROR, ERROR (ex_interp [cell_int 5]) (.expected_args ['+'] 2 1), some 1⟩ ∧
    tpmi_compile ex_natives 1 (ex_interp []) "5 + 7".toList
      = .ok ⟨TPMI_ERROR, ERROR (ex_interp [cell_int 5]) (.expected_args ['+'] 2 1), some 1⟩ := by
  refine ⟨by decide, by decide, by decide, by decide⟩

/-- C20. Two tokens of the same text are classified differently: the lines
`0x` and `0x 12` both start with the token `0x`; on the first `make_cell`
returns the integer 0, on the second the atom `0x`.  The call of `strtol` in
`read_int` starts behind the prefix, at the end of the token, and reads the
text that follows it on the line. -/
theorem make_cell_depends_on_following_text :
    (tokenize "0x".toList).1.map token_t.text = ["0x".toList] ∧
    (tokenize "0x 12".toList).1.map token_t.text = ["0x".toList, "12".toList] ∧
    (tokenize "0x".toList).1.map (fun t => make_cell t.line t.len) = [⟨CT_INT, .i 0⟩] ∧
    (tokenize "0x 12".toList).1.map (fun t => make_cell t.line t.len)
      = [⟨CT_ATOM, .chars "0x".toList⟩, ⟨CT_INT, .i 12⟩] ∧
    make_cell "0x".toList 2 ≠ make_cell "0x 12".toList 2 := by
  refine ⟨by decide, by decide, by decide, by decide, by decide⟩

/-! ### Evaluation of values, declaration and naming -/

theorem dict_word_eq_some (d : dict_t) (key : List Char) (w : word_t) :
    dict_word d key = some w ↔ ∃ e, dict_find d key = some e ∧ e.word = some w := by
  unfold dict_word
  cases h : dict_find d key with
  | none => simp
  | some e => simp

/-- C11. Values and variable references are pushed, not executed: for a
cell that is not an atom, and for an atom cell whose name is bound to a
Variable word, `eval_cell` returns ok and leaves the previous stack with one
copy of the cell on top and everything else as it was, whatever the native
routines are and with no nested dispatch allowed (fuel 0). -/
theorem eval_cell_pushes_values (nat : natives_t) (fuel : Nat) (interp : tpmi_t) (c : cell_t)
    (h : c.type ≠ CT_ATOM ∨
      (c.type = CT_ATOM ∧ ∃ w, dict_word interp.words c.atom = some w ∧ w.type = WT_VAR)) :
    eval_cell nat fuel interp c
      = .ok (TPMI_OK, { interp with stack := interp.stack ++ [c] }) ∧
    eval_cell nat 0 interp c = eval_cell nat fuel interp c := by
  have key : ∀ ew, eval_cell_with ew interp c
      = .ok (TPMI_OK, { interp with stack := interp.stack ++ [c] }) := by
    intro ew
    rcases h with h | ⟨h, w, hw, hv⟩
    · simp [eval_cell_with, h, STACK_PUSH, cell_copy]
    · obtain ⟨e, he, hew⟩ := (dict_word_eq_some _ _ _).1 hw
      simp [eval_cell_with, h, he, hew, hv, STACK_PUSH, cell_copy]
  have all : ∀ f, eval_cell nat f interp c
      = .ok (TPMI_OK, { interp with stack := interp.stack ++ [c] }) := by
    intro f
    cases f with
    | zero => exact key _
    | succ f => exact key _
  exact ⟨all fuel, by rw [all 0, all fuel]⟩

/-- Witness of C11: the integer 12 and the atom `x` of a variable are pushed
on the stack `[5]`. -/
theorem eval_cell_pushes_values_witness :
    eval_cell ex_natives 0 (ex_interp [cell_int 5]) (cell_int 12)
      = .ok (TPMI_OK, ex_interp [cell_int 5, cell_int 12]) ∧
    eval_cell ex_natives 0
        { ex_interp [cell_int 5] with words := [⟨['x'], some ⟨WT_VAR, false, none, []⟩⟩] }
        ⟨CT_ATOM, .chars ['x']⟩
      = .ok (TPMI_OK,
          { ex_interp [cell_int 5, ⟨CT_ATOM, .chars ['x']⟩] with
            words := [⟨['x'], some ⟨WT_VAR, false, none, []⟩⟩] }) :=
  ⟨(eval_cell_pushes_values ex_natives 0 (ex_interp [cell_int 5]) (cell_int 12)
      (Or.inl (by decide))).1,
   (eval_cell_pushes_values ex_natives 0
      { ex_interp [cell_int 5] with words := [⟨['x'], some ⟨WT_VAR, false, none, []⟩⟩] }
      ⟨CT_ATOM, .chars ['x']⟩
      (Or.inr ⟨rfl, ⟨WT_VAR, false, none, []⟩, by decide, rfl⟩)).1⟩

theorem strncmp_nil_right (xs : List Char) (n : Nat) (h : n ≤ xs.length) :
    strncmp xs [] n = true ↔ n = 0 := by
  cases n with
  | zero => simp [strncmp]
  | succ n =>
    cases xs with
    | nil => simp at h
    | cons x xs => simp [strncmp]

theorem strncmp_single (line : List Char) (ch : Char) (len : Nat)
    (hlen : 0 < len) (hle : len ≤ line.length) :
    strncmp line [ch] len = true ↔ line.take len = [ch] := by
  cases len with
  | zero => omega
  | succ n =>
    cases line with
    | nil => simp at hle
    | cons x xs =>
      simp only [List.length_cons, Nat.add_le_add_iff_right] at hle
      simp only [strncmp, Bool.and_eq_true, beq_iff_eq, strncmp_nil_right xs n hle,
        List.take_succ_cons, List.cons.injEq, List.take_eq_nil_iff]
      constructor
      · rintro ⟨h1, h2⟩; exact ⟨h1, Or.inl h2⟩
      · rintro ⟨h1, h2 | h2⟩
        · exact ⟨h1, h2⟩
        · subst h2; exact ⟨h1, by simpa using hle⟩

theorem dict_add_of_find (d : dict_t) (key : List Char) (e : entry_t)
    (h : dict_find d key = some e) : dict_add d key = d := by
  simp [dict_add, h]

theorem dict_find_append_new (d : dict_t) (key k : List Char)
    (h : dict_find d key = none) :
    dict_find (d ++ [⟨key, none⟩]) k
      = if k = key then some ⟨key, none⟩ else dict_find d k := by
  induction d with
  | nil =>
    by_cases hk : key = k
    · subst hk; simp [dict_find]
    · have hk' : ¬ k = key := fun e => hk e.symm
      simp [dict_find, hk, hk']
  | cons e rest ih =>
    simp only [dict_find] at h
    split at h
    · simp at h
    · rename_i hne
      have ih1 := ih h
      simp only [List.cons_append, dict_find]
      by_cases hek : e.key = k
      · have : ¬ k = key := by rw [← hek]; exact hne
        simp [hek, this]
      · simp [hek, ih1]

theorem dict_word_add (d : dict_t) (key k : List Char) :
    dict_word (dict_add d key) k = dict_word d k := by
  unfold dict_add
  cases h : dict_find d key with
  | some e => rfl
  | none =>
    simp only [dict_word, dict_find_append_new d key k h]
    by_cases hk : k = key
    · subst hk; simp [h]
    · simp [hk]

theorem dict_find_add_isSome (d : dict_t) (key : List Char) :
    ∃ e, dict_find (dict_add d key) key = some e := by
  unfold dict_add
  cases h : dict_find d key with
  | some e => exact ⟨e, h⟩
  | none => exact ⟨⟨key, none⟩, by simp [dict_find_append_new d key key h]⟩

theorem dict_find_set_word (d : dict_t) (key k : List Char) (w : Option word_t) :
    dict_find (dict_set_word d key w) k
      = if k = key then (dict_find d k).map (fun e => ⟨e.key, w⟩) else dict_find d k := by
  induction d with
  | nil => simp [dict_set_word, dict_find]
  | cons e rest ih =>
    simp only [dict_set_word]
    by_cases hek : e.key = key
    · by_cases hk : k = key
      · subst hk; simp [hek, dict_find]
      · have hk' : ¬ key = k := fun h => hk h.symm
        simp [hek, hk, hk', dict_find]
    · simp only [hek, if_false, dict_find]
      by_cases hk : e.key = k
      · have : ¬ k = key := by rw [← hk]; exact hek
        simp [hk, this]
      · simp [hk, ih]

theorem dict_word_set_self (d : dict_t) (key : List Char) (w : Option word_t) (e : entry_t)
    (h : dict_find d key = some e) : dict_word (dict_set_word d key w) key = w := by
  simp [dict_word, dict_find_set_word, h]

theorem dict_word_set_other (d : dict_t) (key k : List Char) (w : Option word_t)
    (h : k ≠ key) : dict_word (dict_set_word d key w) k = dict_word d k := by
  simp [dict_word, dict_find_set_word, h]

/-- C14. Naming a definition.  In Compile mode with no definition open, for a
token other than `;`: an atom whose name owns no word gets a new empty
Definition word that is not immediate and becomes the current word, with
need-more, every other name keeping its word; an atom whose name owns a
word gives the redefinition error, and a token that is not an atom gives an
error, both leaving everything but the error message as it was (the words,
the stack, the mode Compile, no current word). -/
theorem compile_names_definition (nat : natives_t) (fuel : Nat) (interp : tpmi_t)
    (line : List Char) (len : Nat)
    (hm : interp.mode = TPMI_COMPILE) (hc : interp.curr_word = none)
    (hlen : 0 < len) (hle : len ≤ line.length) (hsemi : line.take len ≠ [';']) :
    ((make_cell line len).type = CT_ATOM →
      dict_word interp.words (make_cell line len).atom = none →
      ∃ words, tpmi_compile_token nat fuel interp line len
          = .ok (TPMI_NEED_MORE,
              { interp with words := words, curr_word := some (make_cell line len).atom }) ∧
        dict_word words (make_cell line len).atom = some ⟨WT_DEF, false, none, []⟩ ∧
        ∀ k, k ≠ (make_cell line len).atom → dict_word words k = dict_word interp.words k) ∧
    ((make_cell line len).type = CT_ATOM →
      (∃ w, dict_word interp.words (make_cell line len).atom = some w) →
      tpmi_compile_token nat fuel interp line len
        = .ok (TPMI_ERROR, ERROR interp (.already_defined (make_cell line len).atom))) ∧
    ((make_cell line len).type ≠ CT_ATOM →
      tpmi_compile_token nat fuel interp line len
        = .ok (TPMI_ERROR, ERROR interp .expected_word_name)) := by
  have hs : strncmp line [';'] len = false := by
    cases h : strncmp line [';'] len with
    | false => rfl
    | true => exact absurd ((strncmp_single line ';' len hlen hle).1 h) hsemi
  refine ⟨?_, ?_, ?_⟩
  · intro hat hnone
    have hw : dict_word (dict_add interp.words (make_cell line len).atom)
        (make_cell line len).atom = none := by rw [dict_word_add]; exact hnone
    obtain ⟨e, he⟩ := dict_find_add_isSome interp.words (make_cell line len).atom
    refine ⟨dict_set_word (dict_add interp.words (make_cell line len).atom)
      (make_cell line len).atom (some ⟨WT_DEF, false, none, []⟩), ?_, ?_, ?_⟩
    · simp [tpmi_compile_token, hm, hs, hc, hat, hw]
    · exact dict_word_set_self _ _ _ e he
    · intro k hk
      rw [dict_word_set_other _ _ _ _ hk, dict_word_add]
  · rintro hat ⟨w, hw⟩
    have hw' : dict_word (dict_add interp.words (make_cell line len).atom)
        (make_cell line len).atom = some w := by rw [dict_word_add]; exact hw
    obtain ⟨e, he, _⟩ := (dict_word_eq_some _ _ _).1 hw
    have hadd := dict_add_of_find _ _ e he
    simp only [tpmi_compile_token, hm, hs, hc, hat, hw', if_true, Bool.false_eq_true, if_false]
    rw [hadd]
    obtain ⟨s, wds, m, cw, em⟩ := interp
    simp only at hm hc
    subst hm; subst hc
    rfl
  · intro hat
    simp [tpmi_compile_token, hm, hs, hc, hat]

/-- Witness of C14: in Compile mode with no definition open, the token `w`
opens the empty definition of `w`. -/
theorem compile_names_definition_witness :
    ∃ words, tpmi_compile_token ex_natives 0
        { ex_interp [] with mode := TPMI_COMPILE } ['w'] 1
        = .ok (TPMI_NEED_MORE,
            { ex_interp [] with mode := TPMI_COMPILE, words := words, curr_word := some ['w'] }) ∧
      dict_word words ['w'] = some ⟨WT_DEF, false, none, []⟩ ∧
      ∀ k, k ≠ ['w'] → dict_word words k = dict_word ex_words k :=
  (compile_names_definition ex_natives 0 { ex_interp [] with mode := TPMI_COMPILE } ['w'] 1
    rfl rfl (by decide) (by decide) (by decide)).1 (by decide) (by decide)

/-! ### What evaluation leaves alone -/

theorem check_args_loop_state (interp : tpmi_t) (key : List Char) (as : List fn_arg_t)
    (stk_arg : Option Nat) (i : Nat) (b : Bool) (interp1 : tpmi_t)
    (h : check_args_loop interp key as stk_arg i = .ok (b, interp1)) :
    interp1 = interp ∨ ∃ m, interp1 = ERROR interp m := by
  induction as generalizing stk_arg i with
  | nil =>
    simp only [check_args_loop, Except.ok.injEq, Prod.mk.injEq] at h
    exact Or.inl h.2.symm
  | cons arg rest ih =>
    rw [check_args_loop] at h
    split at h
    · simp only [Except.ok.injEq, Prod.mk.injEq] at h
      exact Or.inl h.2.symm
    · split at h
      · split at h
        · simp at h
        · split at h
          · simp only [Except.ok.injEq, Prod.mk.injEq] at h
            exact Or.inr ⟨_, h.2.symm⟩
          · exact ih _ _ h
      · exact ih _ _ h

theorem check_func_args_state (interp : tpmi_t) (entry : entry_t) (b : Bool)
    (interp1 : tpmi_t) (ai : arg_info_t)
    (h : check_func_args interp entry = .ok (b, interp1, ai)) :
    interp1 = interp ∨ ∃ m, interp1 = ERROR interp m := by
  unfold check_func_args at h
  split at h
  · simp at h
  · split at h
    · simp at h
    · simp only at h
      split at h
      · simp only [Except.ok.injEq, Prod.mk.injEq] at h
        exact Or.inl h.2.1.symm
      · split at h
        · simp only [Except.ok.injEq, Prod.mk.injEq] at h
          exact Or.inr ⟨_, h.2.1.symm⟩
        · split at h
          · simp at h
          · rename_i hloop
            simp only [Except.ok.injEq, Prod.mk.injEq] at h
            obtain ⟨h1, h2, _⟩ := h
            subst h1; subst h2
            exact check_args_loop_state _ _ _ _ _ _ _ hloop

theorem check_func_args_keeps {α : Type} (f : tpmi_t → α) (hf : off_stack f)
    (interp : tpmi_t) (entry : entry_t) (b : Bool) (interp1 : tpmi_t) (ai : arg_info_t)
    (h : check_func_args interp entry = .ok (b, interp1, ai)) : f interp1 = f interp := by
  rcases check_func_args_state interp entry b interp1 ai h with h1 | ⟨m, h1⟩
  · rw [h1]
  · rw [h1]; exact hf.2 interp m

theorem eval_def_loop_keeps {α : Type} (f : tpmi_t → α)
    (ec : tpmi_t → cell_t → Res eval_t)
    (hec : ∀ (interp : tpmi_t) (c : cell_t) (st : tpmi_status_t) (interp1 : tpmi_t),
      ec interp c = .ok (st, interp1) → f interp1 = f interp)
    (interp : tpmi_t) (status : tpmi_status_t) (cs : List cell_t)
    (st : tpmi_status_t) (interp1 : tpmi_t)
    (h : eval_def_loop ec interp status cs = .ok (st, interp1)) : f interp1 = f interp := by
  induction cs generalizing interp status with
  | nil =>
    simp only [eval_def_loop, Except.ok.injEq, Prod.mk.injEq] at h
    rw [h.2]
  | cons c cs ih =>
    rw [eval_def_loop] at h
    split at h
    · simp at h
    · rename_i st1 interp2 hc
      have h2 := hec _ _ _ _ hc
      split at h
      · simp only [Except.ok.injEq, Prod.mk.injEq] at h
        rw [← h.2, h2]
      · rw [ih _ _ h, h2]

theorem eval_word_with_keeps {α : Type} (f : tpmi_t → α) (hf : off_stack f)
    (nat : natives_t) (hn : natives_keep f nat)
    (ec : tpmi_t → cell_t → Res eval_t)
    (hec : ∀ (interp : tpmi_t) (c : cell_t) (st : tpmi_status_t) (interp1 : tpmi_t),
      ec interp c = .ok (st, interp1) → f interp1 = f interp)
    (interp : tpmi_t) (entry : entry_t) (st : tpmi_status_t) (interp1 : tpmi_t)
    (h : eval_word_with nat ec interp entry = .ok (st, interp1)) : f interp1 = f interp := by
  unfold eval_word_with at h
  split at h
  · simp at h
  · split at h
    · -- builtin
      split at h
      · simp at h
      · rename_i hchk
        simp only [Except.ok.injEq, Prod.mk.injEq] at h
        rw [← h.2]
        exact check_func_args_keeps f hf _ _ _ _ _ hchk
      · rename_i hchk
        split at h
        · simp at h
        · rename_i I1 _ _ func _
          simp only [Except.ok.injEq] at h
          have := hn func.ptr I1
          rw [h] at this
          rw [this]
          exact check_func_args_keeps f hf _ _ _ _ _ hchk
    · exact eval_def_loop_keeps f ec hec _ _ _ _ _ h
    · -- foreign
      split at h
      · simp at h
      · rename_i hchk
        simp only [Except.ok.injEq, Prod.mk.injEq] at h
        rw [← h.2]
        exact check_func_args_keeps f hf _ _ _ _ _ hchk
      · rename_i hchk
        split at h
        · simp at h
        · simp only at h
          split at h
          · simp at h
          · split at h
            · simp at h
            · split at h
              · simp at h
              · simp only [Except.ok.injEq, Prod.mk.injEq] at h
                rw [← h.2, hf.1]
                exact check_func_args_keeps f hf _ _ _ _ _ hchk
    · simp at h

theorem eval_cell_with_keeps {α : Type} (f : tpmi_t → α) (hf : off_stack f)
    (ew : tpmi_t → entry_t → Res eval_t)
    (hew : ∀ (interp : tpmi_t) (e : entry_t) (st : tpmi_status_t) (interp1 : tpmi_t),
      ew interp e = .ok (st, interp1) → f interp1 = f interp)
    (interp : tpmi_t) (c : cell_t) (st : tpmi_status_t) (interp1 : tpmi_t)
    (h : eval_cell_with ew interp c = .ok (st, interp1)) : f interp1 = f interp := by
  unfold eval_cell_with at h
  simp only at h
  split at h
  · split at h
    · simp at h
    · split at h
      · simp only [Except.ok.injEq, Prod.mk.injEq] at h
        rw [← h.2]; exact hf.2 _ _
      · split at h
        · exact hew _ _ _ _ h
        · simp only [Except.ok.injEq, Prod.mk.injEq] at h
          rw [← h.2]; exact hf.1 _ _
  · simp only [Except.ok.injEq, Prod.mk.injEq] at h
    rw [← h.2]; exact hf.1 _ _

theorem eval_cell_keeps {α : Type} (f : tpmi_t → α) (hf : off_stack f)
    (nat : natives_t) (hn : natives_keep f nat) (fuel : Nat)
    (interp : tpmi_t) (c : cell_t) (st : tpmi_status_t) (interp1 : tpmi_t)
    (h : eval_cell nat fuel interp c = .ok (st, interp1)) : f interp1 = f interp := by
  induction fuel generalizing interp c st interp1 with
  | zero =>
    exact eval_cell_with_keeps f hf _ (by intro _ _ _ _ h; simp at h) _ _ _ _ h
  | succ fuel ih =>
    exact eval_cell_with_keeps f hf _
      (fun I e s I1 h1 => eval_word_with_keeps f hf nat hn _ ih I e s I1 h1) _ _ _ _ h

theorem off_stack_mode : off_stack tpmi_t.mode := ⟨fun _ _ => rfl, fun _ _ => rfl⟩
theorem off_stack_curr_word : off_stack tpmi_t.curr_word := ⟨fun _ _ => rfl, fun _ _ => rfl⟩
theorem off_stack_words : off_stack tpmi_t.words := ⟨fun _ _ => rfl, fun _ _ => rfl⟩

theorem dict_word_update (d : dict_t) (key k : List Char) (f : word_t → word_t) :
    dict_word (word_update d key f) k
      = if k = key then (dict_word d key).map f else dict_word d k := by
  unfold word_update
  split
  · rename_i k0 w hfind
    by_cases hk : k = key
    · subst hk
      rw [dict_word_set_self _ _ _ _ hfind]
      simp [dict_word, hfind]
    · simp [dict_word_set_other _ _ _ _ hk, hk]
  · rename_i hnot
    by_cases hk : k = key
    · subst hk
      simp only [if_true]
      cases hfind : dict_find d k with
      | none => simp [dict_word, hfind]
      | some e =>
        obtain ⟨k0, w⟩ := e
        cases w with
        | none => simp [dict_word, hfind]
        | some w => exact absurd hfind (hnot k0 w)
    · simp [hk]

theorem tpmi_compile_token_curr_word (nat : natives_t) (fuel : Nat)
    (hn : natives_keep tpmi_t.curr_word nat)
    (interp : tpmi_t) (line : List Char) (len : Nat) (st : tpmi_status_t) (interp1 : tpmi_t)
    (h : tpmi_compile_token nat fuel interp line len = .ok (st, interp1)) :
    interp1.curr_word = interp.curr_word ∨
    (interp.mode = TPMI_EVAL ∧ strncmp line [':'] len = true ∧ interp1.curr_word = none) ∨
    (interp.mode = TPMI_COMPILE ∧ interp.curr_word = none ∧
      interp1.curr_word = some (make_cell line len).atom) := by
  have hev : ∀ (I : tpmi_t) (c : cell_t), eval_cell nat fuel I c = .ok (st, interp1) →
      interp1.curr_word = I.curr_word :=
    fun I c h1 => eval_cell_keeps tpmi_t.curr_word off_stack_curr_word nat hn fuel I c st interp1 h1
  unfold tpmi_compile_token at h
  simp only at h
  split at h
  · -- Evaluate
    rename_i hmode
    split at h
    · rename_i hcolon
      simp only [Except.ok.injEq, Prod.mk.injEq] at h
      exact Or.inr (Or.inl ⟨hmode, hcolon, by rw [← h.2]⟩)
    · split at h
      · simp only [Except.ok.injEq, Prod.mk.injEq] at h
        left; rw [← h.2]
      · split at h
        · simp only [Except.ok.injEq, Prod.mk.injEq] at h
          left; rw [← h.2]
        · split at h
          · split at h
            · simp only [Except.ok.injEq, Prod.mk.injEq] at h
              left; rw [← h.2]
            · simp only [Except.ok.injEq, Prod.mk.injEq] at h
              left; rw [← h.2]
          · exact Or.inl (hev _ _ h)
  · -- Compile
    rename_i hmode
    split at h
    · simp only [Except.ok.injEq, Prod.mk.injEq] at h
      left; rw [← h.2]
    · split at h
      · rename_i hcurr
        split at h
        · split at h
          · simp only [Except.ok.injEq, Prod.mk.injEq] at h
            exact Or.inr (Or.inr ⟨hmode, hcurr, by rw [← h.2]⟩)
          · simp only [Except.ok.injEq, Prod.mk.injEq] at h
            left; rw [← h.2]; rfl
        · simp only [Except.ok.injEq, Prod.mk.injEq] at h
          left; rw [← h.2]; rfl
      · split at h
        · split at h
          · simp at h
          · split at h
            · exact Or.inl (hev
                { interp with words := dict_add interp.words (make_cell line len).atom } _ h)
            · simp only [Except.ok.injEq, Prod.mk.injEq] at h
              left; rw [← h.2]
        · simp only [Except.ok.injEq, Prod.mk.injEq] at h
          left; rw [← h.2]
  · -- DeclareVariable
    split at h
    · split at h
      · simp at h
      · simp only [Except.ok.injEq, Prod.mk.injEq] at h
        left; rw [← h.2]
    · simp only [Except.ok.injEq, Prod.mk.injEq] at h
      left; rw [← h.2]; rfl
  · -- FunctionReference
    split at h
    · split at h
      · simp at h
      · split at h
        · simp only [Except.ok.injEq, Prod.mk.injEq] at h
          left; rw [← h.2]
        · simp only [Except.ok.injEq, Prod.mk.injEq] at h
          left; rw [← h.2]; rfl
    · simp only [Except.ok.injEq, Prod.mk.injEq] at h
      left; rw [← h.2]; rfl

/-! ### The directive `immediate` -/

/-- C16, as stated, fails: after `: a 1 ;` the current word is `a`; the
empty definition `: ;` clears the current word, and the directive
`immediate` processed next leaves the flag of `a`, the most recently defined
word, unset. -/
theorem immediate_after_empty_definition_marks_nothing :
    tpmi_compile ex_natives 1 (ex_interp []) ": a 1 ;".toList
      = .ok ⟨TPMI_OK, ex_a false (some ['a']), none⟩ ∧
    tpmi_compile ex_natives 1 (ex_a false (some ['a'])) ": ;".toList
      = .ok ⟨TPMI_OK, ex_a false none, none⟩ ∧
    tpmi_compile ex_natives 1 (ex_a false none) "immediate".toList
      = .ok ⟨TPMI_OK, ex_a false none, none⟩ ∧
    dict_word (ex_a false none).words ['a'] = some ⟨WT_DEF, false, none, [⟨CT_INT, .i 1⟩]⟩ := by
  refine ⟨by decide, by decide, by decide, by decide⟩

/-- C16, amended.  In Evaluate mode the token `immediate` returns ok.  With
a current word it sets the immediate flag of that word and changes nothing
else: the stack, the mode, the current word, the other fields of that word
and the word of every other name stay.  With no current word it changes
nothing at all.  The current word is the word named by the latest
definition for as long as no `:` is processed: the token `:` clears it, and
any other token leaves it as it is or, when it names a new definition, sets
it to that name (for native routines that leave it alone). -/
theorem immediate_marks_current_word (nat : natives_t) (fuel : Nat) (interp : tpmi_t)
    (rest : List Char) (hm : interp.mode = TPMI_EVAL) :
    (∀ key, interp.curr_word = some key →
      tpmi_compile_token nat fuel interp ("immediate".toList ++ rest) 9
        = .ok (TPMI_OK, { interp with
            words := word_update interp.words key (fun w => { w with immediate := true }) }) ∧
      dict_word (word_update interp.words key (fun w => { w with immediate := true })) key
        = (dict_word interp.words key).map (fun w => { w with immediate := true }) ∧
      ∀ k, k ≠ key →
        dict_word (word_update interp.words key (fun w => { w with immediate := true })) k
          = dict_word interp.words k) ∧
    (interp.curr_word = none →
      tpmi_compile_token nat fuel interp ("immediate".toList ++ rest) 9
        = .ok (TPMI_OK, interp)) ∧
    tpmi_compile_token nat fuel interp (':' :: rest) 1
      = .ok (TPMI_NEED_MORE, { interp with mode := TPMI_COMPILE, curr_word := none }) ∧
    (natives_keep tpmi_t.curr_word nat →
      ∀ (interp0 : tpmi_t) (line : List Char) (len : Nat) (st : tpmi_status_t)
        (interp1 : tpmi_t),
        tpmi_compile_token nat fuel interp0 line len = .ok (st, interp1) →
        interp1.curr_word = interp0.curr_word ∨
        (interp0.mode = TPMI_EVAL ∧ strncmp line [':'] len = true ∧
          interp1.curr_word = none) ∨
        (interp0.mode = TPMI_COMPILE ∧ interp0.curr_word = none ∧
          interp1.curr_word = some (make_cell line len).atom)) := by
  have z1 : ∀ (xs ys : List Char), strncmp xs ys 0 = true := by
    intro xs ys; cases xs <;> cases ys <;> rfl
  have z2 : ∀ (xs ys : List Char), strncasecmp xs ys 0 = true := by
    intro xs ys; cases xs <;> cases ys <;> rfl
  have e0 : "immediate".toList ++ rest
      = 'i' :: 'm' :: 'm' :: 'e' :: 'd' :: 'i' :: 'a' :: 't' :: 'e' :: rest := rfl
  have h1 : strncmp ('i' :: 'm' :: 'm' :: 'e' :: 'd' :: 'i' :: 'a' :: 't' :: 'e' :: rest)
      [':'] 9 = false := by rfl
  have h2 : strncmp ('i' :: 'm' :: 'm' :: 'e' :: 'd' :: 'i' :: 'a' :: 't' :: 'e' :: rest)
      [Char.ofNat 39] 9 = false := by rfl
  have h3 : strncasecmp ('i' :: 'm' :: 'm' :: 'e' :: 'd' :: 'i' :: 'a' :: 't' :: 'e' :: rest)
      ['v', 'a', 'r', 'i', 'a', 'b', 'l', 'e'] 9 = false := by rfl
  have h4 : strncasecmp ('i' :: 'm' :: 'm' :: 'e' :: 'd' :: 'i' :: 'a' :: 't' :: 'e' :: rest)
      ['i', 'm', 'm', 'e', 'd', 'i', 'a', 't', 'e'] 9 = true := by
    simp only [strncasecmp, z2, beq_self_eq_true, Bool.and_self]
  have h5 : strncmp (':' :: rest) [':'] 1 = true := by
    simp only [strncmp, z1, beq_self_eq_true, Bool.and_self]
  rw [e0]
  refine ⟨?_, ?_, ?_, ?_⟩
  · intro key hkey
    refine ⟨?_, ?_, ?_⟩
    · simp [tpmi_compile_token, hm, h1, h2, h3, h4, hkey]
    · simp [dict_word_update]
    · intro k hk
      simp [dict_word_update, hk]
  · intro hnone
    simp [tpmi_compile_token, hm, h1, h2, h3, h4, hnone]
  · simp [tpmi_compile_token, hm, h5]
  · intro hn interp0 line len st interp1 h
    exact tpmi_compile_token_curr_word nat fuel hn interp0 line len st interp1 h

/-- Witness of amended C16: after `: a 1 ;` the token `immediate` sets the
flag of `a`. -/
theorem immediate_marks_current_word_witness :
    tpmi_compile_token ex_natives 0 (ex_a false (some ['a'])) "immediate".toList 9
      = .ok (TPMI_OK, { ex_a false (some ['a']) with
          words := word_update (ex_a false (some ['a'])).words ['a']
            (fun w => { w with immediate := true }) }) ∧
    dict_word (word_update (ex_a false (some ['a'])).words ['a']
        (fun w => { w with immediate := true })) ['a']
      = some ⟨WT_DEF, true, none, [⟨CT_INT, .i 1⟩]⟩ :=
  ⟨((immediate_marks_current_word ex_natives 0 (ex_a false (some ['a'])) [] rfl).1
      ['a'] rfl).1, by decide⟩

/-! ### Status of a line -/

theorem eval_def_loop_settles (ec : tpmi_t → cell_t → Res eval_t)
    (hec : ∀ (interp : tpmi_t) (c : cell_t) (st : tpmi_status_t) (interp1 : tpmi_t),
      ec interp c = .ok (st, interp1) → st ≠ TPMI_NEED_MORE)
    (interp : tpmi_t) (status : tpmi_status_t) (cs : List cell_t)
    (st : tpmi_status_t) (interp1 : tpmi_t) (hs : status ≠ TPMI_NEED_MORE)
    (h : eval_def_loop ec interp status cs = .ok (st, interp1)) : st ≠ TPMI_NEED_MORE := by
  induction cs generalizing interp status with
  | nil =>
    simp only [eval_def_loop, Except.ok.injEq, Prod.mk.injEq] at h
    rw [← h.1]; exact hs
  | cons c cs ih =>
    rw [eval_def_loop] at h
    split at h
    · simp at h
    · rename_i st1 interp2 hc
      have h2 := hec _ _ _ _ hc
      split at h
      · simp only [Except.ok.injEq, Prod.mk.injEq] at h
        rw [← h.1]; exact h2
      · exact ih _ _ h2 h

theorem eval_word_with_settles (nat : natives_t) (hn : natives_settle nat)
    (ec : tpmi_t → cell_t → Res eval_t)
    (hec : ∀ (interp : tpmi_t) (c : cell_t) (st : tpmi_status_t) (interp1 : tpmi_t),
      ec interp c = .ok (st, interp1) → st ≠ TPMI_NEED_MORE)
    (interp : tpmi_t) (entry : entry_t) (st : tpmi_status_t) (interp1 : tpmi_t)
    (h : eval_word_with nat ec interp entry = .ok (st, interp1)) : st ≠ TPMI_NEED_MORE := by
  unfold eval_word_with at h
  split at h
  · simp at h
  · split at h
    · split at h
      · simp at h
      · simp only [Except.ok.injEq, Prod.mk.injEq] at h
        rw [← h.1]; decide
      · split at h
        · simp at h
        · rename_i I1 _ _ _ func _
          simp only [Except.ok.injEq] at h
          have := hn func.ptr I1
          rw [h] at this
          exact this
    · exact eval_def_loop_settles ec hec _ _ _ _ _ (by decide) h
    · split at h
      · simp at h
      · simp only [Except.ok.injEq, Prod.mk.injEq] at h
        rw [← h.1]; decide
      · split at h
        · simp at h
        · simp only at h
          split at h
          · simp at h
          · split at h
            · simp at h
            · split at h
              · simp at h
              · simp only [Except.ok.injEq, Prod.mk.injEq] at h
                rw [← h.1]; decide
    · simp at h

theorem eval_cell_with_settles (ew : tpmi_t → entry_t → Res eval_t)
    (hew : ∀ (interp : tpmi_t) (e : entry_t) (st : tpmi_status_t) (interp1 : tpmi_t),
      ew interp e = .ok (st, interp1) → st ≠ TPMI_NEED_MORE)
    (interp : tpmi_t) (c : cell_t) (st : tpmi_status_t) (interp1 : tpmi_t)
    (h : eval_cell_with ew interp c = .ok (st, interp1)) : st ≠ TPMI_NEED_MORE := by
  unfold eval_cell_with at h
  simp only at h
  split at h
  · split at h
    · simp at h
    · split at h
      · simp only [Except.ok.injEq, Prod.mk.injEq] at h
        rw [← h.1]; decide
      · split at h
        · exact hew _ _ _ _ h
        · simp only [Except.ok.injEq, Prod.mk.injEq] at h
          rw [← h.1]; decide
  · simp only [Except.ok.injEq, Prod.mk.injEq] at h
    rw [← h.1]; decide

theorem eval_cell_settles (nat : natives_t) (hn : natives_settle nat) (fuel : Nat)
    (interp : tpmi_t) (c : cell_t) (st : tpmi_status_t) (interp1 : tpmi_t)
    (h : eval_cell nat fuel interp c = .ok (st, interp1)) : st ≠ TPMI_NEED_MORE := by
  induction fuel generalizing interp c st interp1 with
  | zero =>
    exact eval_cell_with_settles _ (by intro _ _ _ _ h; simp at h) _ _ _ _ h
  | succ fuel ih =>
    exact eval_cell_with_settles _
      (fun I e s I1 h1 => eval_word_with_settles nat hn _ ih I e s I1 h1) _ _ _ _ h

theorem tpmi_compile_token_status (nat : natives_t) (fuel : Nat)
    (hs : natives_settle nat) (hmode : natives_keep tpmi_t.mode nat)
    (interp : tpmi_t) (line : List Char) (len : Nat) (st : tpmi_status_t) (interp1 : tpmi_t)
    (h : tpmi_compile_token nat fuel interp line len = .ok (st, interp1))
    (hne : st ≠ TPMI_ERROR) (hnot : ¬ immediate_run interp line len) :
    (st = TPMI_NEED_MORE ∧ interp1.mode ≠ TPMI_EVAL) ∨
    (st = TPMI_OK ∧ interp1.mode = TPMI_EVAL) := by
  have hev : ∀ (I : tpmi_t) (c : cell_t), eval_cell nat fuel I c = .ok (st, interp1) →
      st = TPMI_OK ∧ interp1.mode = I.mode := by
    intro I c h1
    have a := eval_cell_settles nat hs fuel I c st interp1 h1
    have b := eval_cell_keeps tpmi_t.mode off_stack_mode nat hmode fuel I c st interp1 h1
    refine ⟨?_, b⟩
    cases st <;> simp_all
  unfold tpmi_compile_token at h
  simp only at h
  split at h
  · -- Evaluate
    rename_i hmode1
    split at h
    · simp only [Except.ok.injEq, Prod.mk.injEq] at h
      left; exact ⟨h.1.symm, by rw [← h.2]; simp⟩
    · split at h
      · simp only [Except.ok.injEq, Prod.mk.injEq] at h
        left; exact ⟨h.1.symm, by rw [← h.2]; simp⟩
      · split at h
        · simp only [Except.ok.injEq, Prod.mk.injEq] at h
          left; exact ⟨h.1.symm, by rw [← h.2]; simp⟩
        · split at h
          · split at h
            · simp only [Except.ok.injEq, Prod.mk.injEq] at h
              right; exact ⟨h.1.symm, by rw [← h.2]; exact hmode1⟩
            · simp only [Except.ok.injEq, Prod.mk.injEq] at h
              right; exact ⟨h.1.symm, by rw [← h.2]; exact hmode1⟩
          · obtain ⟨a, b⟩ := hev _ _ h
            right; exact ⟨a, by rw [b]; exact hmode1⟩
  · -- Compile
    rename_i hmode1
    split at h
    · simp only [Except.ok.injEq, Prod.mk.injEq] at h
      right; exact ⟨h.1.symm, by rw [← h.2]⟩
    · rename_i hsemi
      split at h
      · split at h
        · split at h
          · simp only [Except.ok.injEq, Prod.mk.injEq] at h
            left; exact ⟨h.1.symm, by rw [← h.2]; simp [hmode1]⟩
          · simp only [Except.ok.injEq, Prod.mk.injEq] at h
            exact absurd h.1.symm hne
        · simp only [Except.ok.injEq, Prod.mk.injEq] at h
          exact absurd h.1.symm hne
      · rename_i curr hcurr
        split at h
        · rename_i hat
          split at h
          · simp at h
          · rename_i word hword
            split at h
            · rename_i himm
              exfalso
              apply hnot
              refine ⟨hmode1, by simpa using hsemi, by rw [hcurr]; simp, hat, word, ?_, himm⟩
              rw [← dict_word_add interp.words (make_cell line len).atom]
              exact hword
            · simp only [Except.ok.injEq, Prod.mk.injEq] at h
              left; exact ⟨h.1.symm, by rw [← h.2]; simp [hmode1]⟩
        · simp only [Except.ok.injEq, Prod.mk.injEq] at h
          left; exact ⟨h.1.symm, by rw [← h.2]; simp [hmode1]⟩
  · -- DeclareVariable
    split at h
    · split at h
      · simp at h
      · simp only [Except.ok.injEq, Prod.mk.injEq] at h
        right; exact ⟨h.1.symm, by rw [← h.2]⟩
    · simp only [Except.ok.injEq, Prod.mk.injEq] at h
      exact absurd h.1.symm hne
  · -- FunctionReference
    split at h
    · split at h
      · simp at h
      · split at h
        · simp only [Except.ok.injEq, Prod.mk.injEq] at h
          right; exact ⟨h.1.symm, by rw [← h.2]⟩
        · simp only [Except.ok.injEq, Prod.mk.injEq] at h
          exact absurd h.1.symm hne
    · simp only [Except.ok.injEq, Prod.mk.injEq] at h
      exact absurd h.1.symm hne

theorem run_tokens_snoc (nat : natives_t) (fuel : Nat) (ts : List token_t) (t : token_t)
    (closed : Bool) (interp : tpmi_t) (status st : tpmi_status_t) (interp1 : tpmi_t)
    (h : run_tokens nat fuel interp status (ts ++ [t]) closed = .ok (st, interp1))
    (hne : st ≠ TPMI_ERROR) :
    ∃ s1 I1, run_tokens nat fuel interp status ts true = .ok (s1, I1) ∧
      tpmi_compile_token nat fuel I1 t.line t.len = .ok (st, interp1) := by
  induction ts generalizing interp status with
  | nil =>
    refine ⟨status, interp, by simp [run_tokens], ?_⟩
    simp only [List.nil_append, run_tokens] at h
    split at h
    · simp at h
    · rename_i st1 I1 hstep
      split at h
      · simp only [Except.ok.injEq, Prod.mk.injEq] at h
        rename_i e
        rw [← h.1] at hne
        exact absurd e hne
      · split at h
        · simp only [Except.ok.injEq, Prod.mk.injEq] at h
          rw [← h.1, ← h.2]; exact hstep
        · simp only [Except.ok.injEq, Prod.mk.injEq] at h
          exact absurd h.1.symm hne
  | cons t0 ts ih =>
    simp only [List.cons_append, run_tokens] at h ⊢
    split at h
    · simp at h
    · rename_i st0 I0 hstep
      split at h
      · simp only [Except.ok.injEq, Prod.mk.injEq] at h
        rename_i e
        rw [← h.1] at hne
        exact absurd e hne
      · rename_i hst0
        obtain ⟨s1, I1, h1, h2⟩ := ih _ _ h
        refine ⟨s1, I1, ?_, h2⟩
        simp only [hstep, hst0, if_false]
        exact h1

theorem ex_natives_settle : natives_settle ex_natives := by
  intro p interp
  simp only [ex_natives, ex_builtin]
  split <;> simp

theorem ex_natives_keep_mode : natives_keep tpmi_t.mode ex_natives := by
  intro p interp
  simp only [ex_natives, ex_builtin]
  split <;> rfl

/-- C17, as stated, fails: the empty line processed in Compile mode, with
the definition of `w` open, returns ok, not need-more, and so does a line of
white space. -/
theorem empty_line_in_compile_mode_returns_ok :
    ex_open_w.mode = TPMI_COMPILE ∧
    tpmi_compile ex_natives 1 ex_open_w [] = .ok ⟨TPMI_OK, ex_open_w, none⟩ ∧
    tpmi_compile ex_natives 1 ex_open_w "  ".toList = .ok ⟨TPMI_OK, ex_open_w, none⟩ := by
  refine ⟨by decide, by decide, by decide⟩

/-- C17, amended.  For native routines that return ok or error and do not
switch the mode, and a line that `tpmi_compile` processes without error: a
line without tokens returns ok and leaves the state as it was, whatever the
mode; for a line with tokens the status is that of the last token, and
unless that token is an immediate word run while a definition is open, the
status is need-more exactly when the mode at the end is Compile,
DeclareVariable or FunctionReference and ok exactly when it is Evaluate. -/
theorem tpmi_compile_status (nat : natives_t) (fuel : Nat) (interp : tpmi_t)
    (line : List Char) (r : compile_t)
    (hs : natives_settle nat) (hmode : natives_keep tpmi_t.mode nat)
    (hr : tpmi_compile nat fuel interp line = .ok r) (hok : r.status ≠ TPMI_ERROR) :
    ((tokenize line).1 = [] → r.status = TPMI_OK ∧ r.interp = interp) ∧
    (∀ ts t, (tokenize line).1 = ts ++ [t] →
      ∃ s1 interp1, run_tokens nat fuel interp TPMI_OK ts true = .ok (s1, interp1) ∧
        tpmi_compile_token nat fuel interp1 t.line t.len = .ok (r.status, r.interp) ∧
        (¬ immediate_run interp1 t.line t.len →
          (r.status = TPMI_NEED_MORE ↔
            (r.interp.mode = TPMI_COMPILE ∨ r.interp.mode = TPMI_DEFVAR ∨
              r.interp.mode = TPMI_FUNCREF)) ∧
          (r.status = TPMI_OK ↔ r.interp.mode = TPMI_EVAL))) := by
  have hrun : run_tokens nat fuel interp TPMI_OK (tokenize line).1 (tokenize line).2
      = .ok (r.status, r.interp) := by
    have := tpmi_compile_loop_eq nat fuel (line.length + 1) interp line TPMI_OK 0
      (Nat.lt_succ_self _)
    rw [show tpmi_compile_loop nat fuel (line.length + 1) interp line TPMI_OK 0
        = tpmi_compile nat fuel interp line from rfl, hr] at this
    exact this.symm
  refine ⟨?_, ?_⟩
  · intro hnil
    rw [hnil] at hrun
    simp only [run_tokens] at hrun
    split at hrun
    · simp only [Except.ok.injEq, Prod.mk.injEq] at hrun
      exact ⟨hrun.1.symm, hrun.2.symm⟩
    · simp only [Except.ok.injEq, Prod.mk.injEq] at hrun
      exact absurd hrun.1.symm hok
  · intro ts t hts
    rw [hts] at hrun
    obtain ⟨s1, interp1, h1, h2⟩ := run_tokens_snoc nat fuel ts t _ interp TPMI_OK _ _ hrun hok
    refine ⟨s1, interp1, h1, h2, ?_⟩
    intro hnot
    rcases tpmi_compile_token_status nat fuel hs hmode interp1 t.line t.len _ _ h2 hok hnot
      with ⟨a, b⟩ | ⟨a, b⟩
    · rw [a]
      refine ⟨⟨fun _ => ?_, fun _ => rfl⟩, ⟨fun h => (by cases h), fun h => absurd h b⟩⟩
      cases hm : r.interp.mode <;> simp_all
    · rw [a, b]
      simp

/-- Witness of amended C17: the line `: w` in Evaluate mode ends in Compile
mode with need-more. -/
theorem tpmi_compile_status_witness :
    tpmi_compile ex_natives 0 (ex_interp []) ": w".toList
      = .ok ⟨TPMI_NEED_MORE, ex_open_w, none⟩ ∧
    ∃ s1 interp1,
      run_tokens ex_natives 0 (ex_interp []) TPMI_OK [⟨": w".toList, 1⟩] true
        = .ok (s1, interp1) ∧
      tpmi_compile_token ex_natives 0 interp1 ['w'] 1 = .ok (TPMI_NEED_MORE, ex_open_w) ∧
      (¬ immediate_run interp1 ['w'] 1 →
        (TPMI_NEED_MORE = TPMI_NEED_MORE ↔
          (ex_open_w.mode = TPMI_COMPILE ∨ ex_open_w.mode = TPMI_DEFVAR ∨
            ex_open_w.mode = TPMI_FUNCREF)) ∧
        (TPMI_NEED_MORE = TPMI_OK ↔ ex_open_w.mode = TPMI_EVAL)) :=
  ⟨by decide,
   (tpmi_compile_status ex_natives 0 (ex_interp []) ": w".toList
      ⟨TPMI_NEED_MORE, ex_open_w, none⟩ ex_natives_settle ex_natives_keep_mode
      (by decide) (by decide)).2 [⟨": w".toList, 1⟩] ⟨['w'], 1⟩ (by decide)⟩

/-! ### Immediate words and definition bodies -/

theorem dict_word_set_add (d : dict_t) (a k : List Char) (w : Option word_t) :
    dict_word (dict_set_word (dict_add d a) a w) k
      = if k = a then w else dict_word d k := by
  by_cases hk : k = a
  · subst hk
    obtain ⟨e, he⟩ := dict_find_add_isSome d k
    simp [dict_word_set_self _ _ _ _ he]
  · simp [dict_word_set_other _ _ _ _ hk, hk, dict_word_add]

theorem inv_on_update (V : List Char → Option word_t) (curr : Option (List Char))
    (k0 : List Char) (f : word_t → word_t) (extra : List cell_t)
    (hdef : ∀ w, (f w).def_ = w.def_ ++ extra)
    (himm : ∀ w, (f w).immediate = true → w.immediate = true ∨ curr = some k0)
    (hcur : extra ≠ [] → curr = some k0)
    (hext : ∀ c ∈ extra, c.type = CT_ATOM →
      ∃ w, V c.atom = some w ∧ (w.immediate = true → c.atom = k0))
    (h : inv_on V curr) : inv_on (view_update V k0 f) curr := by
  obtain ⟨h1, h2, h3⟩ := h
  -- a word after the update, and the word it comes from
  have hback : ∀ (k : List Char) (w : word_t), view_update V k0 f k = some w →
      (k ≠ k0 ∧ V k = some w) ∨ (k = k0 ∧ ∃ w0, V k0 = some w0 ∧ w = f w0) := by
    intro k w hk
    unfold view_update at hk
    by_cases hkk : k = k0
    · rw [if_pos hkk] at hk
      cases hv : V k0 with
      | none => rw [hv] at hk; simp at hk
      | some w0 =>
        rw [hv] at hk
        simp only [Option.map_some', Option.some.injEq] at hk
        exact Or.inr ⟨hkk, w0, rfl, hk.symm⟩
    · rw [if_neg hkk] at hk
      exact Or.inl ⟨hkk, hk⟩
  -- a cell of a body after the update
  have hcell : ∀ (k : List Char) (w : word_t) (c : cell_t), view_update V k0 f k = some w →
      c ∈ w.def_ → (∃ w0, V k = some w0 ∧ c ∈ w0.def_) ∨ (k = k0 ∧ c ∈ extra) := by
    intro k w c hk hc
    rcases hback k w hk with ⟨_, hv⟩ | ⟨hkk, w0, hv, hw⟩
    · exact Or.inl ⟨w, hv, hc⟩
    · rw [hw, hdef, List.mem_append] at hc
      rcases hc with hc | hc
      · exact Or.inl ⟨w0, by rw [hkk]; exact hv, hc⟩
      · exact Or.inr ⟨hkk, hc⟩
  refine ⟨?_, ?_, ?_⟩
  · intro k w c w' hk hc hat hw' hi
    rcases hback c.atom w' hw' with ⟨hne, hv'⟩ | ⟨heq, w0', hv', hwf⟩
    · rcases hcell k w c hk hc with ⟨w0, hv, hc0⟩ | ⟨hkk, hce⟩
      · exact h1 k w0 c w' hv hc0 hat hv' hi
      · obtain ⟨wa, hva, hia⟩ := hext c hce hat
        rw [hva] at hv'
        simp only [Option.some.injEq] at hv'
        subst hv'
        exact absurd (hia hi) hne
    · rcases hcell k w c hk hc with ⟨w0, hv, hc0⟩ | ⟨hkk, hce⟩
      · rw [hwf] at hi
        rcases himm w0' hi with hi0 | hcu
        · exact h1 k w0 c w0' hv hc0 hat (by rw [heq]; exact hv') hi0
        · rw [heq]
          exact (h2 k0 k w0 c hcu hv hc0 hat heq).symm
      · rw [heq, hkk]
  · intro k0' k w c hcu hk hc hat hca
    rcases hcell k w c hk hc with ⟨w0, hv, hc0⟩ | ⟨hkk, hce⟩
    · exact h2 k0' k w0 c hcu hv hc0 hat hca
    · have := hcur (List.ne_nil_of_mem hce)
      rw [this] at hcu
      simp only [Option.some.injEq] at hcu
      rw [hkk, hcu]
  · intro k w c hk hc hat
    have hsome : ∃ w0', V c.atom = some w0' := by
      rcases hcell k w c hk hc with ⟨w0, hv, hc0⟩ | ⟨hkk, hce⟩
      · exact h3 k w0 c hv hc0 hat
      · obtain ⟨wa, hva, _⟩ := hext c hce hat
        exact ⟨wa, hva⟩
    obtain ⟨w0', hv'⟩ := hsome
    unfold view_update
    by_cases hkk : c.atom = k0
    · rw [if_pos hkk]
      rw [hkk] at hv'
      exact ⟨f w0', by rw [hv']; rfl⟩
    · rw [if_neg hkk]
      exact ⟨w0', hv'⟩

theorem inv_on_name (V : List Char → Option word_t) (curr : Option (List Char))
    (k1 : List Char) (nw : word_t) (hdef : nw.def_ = []) (himm : nw.immediate = false)
    (hfresh : V k1 = none) (h : inv_on V curr) :
    inv_on (view_set V k1 nw) (some k1) := by
  obtain ⟨h1, h2, h3⟩ := h
  have hback : ∀ (k : List Char) (w : word_t) (c : cell_t),
      view_set V k1 nw k = some w → c ∈ w.def_ → k ≠ k1 ∧ V k = some w := by
    intro k w c hk hc
    unfold view_set at hk
    by_cases hkk : k = k1
    · rw [if_pos hkk] at hk
      simp only [Option.some.injEq] at hk
      rw [← hk, hdef] at hc
      simp at hc
    · rw [if_neg hkk] at hk
      exact ⟨hkk, hk⟩
  refine ⟨?_, ?_, ?_⟩
  · intro k w c w' hk hc hat hw' hi
    obtain ⟨_, hv⟩ := hback k w c hk hc
    unfold view_set at hw'
    by_cases hkk : c.atom = k1
    · rw [if_pos hkk] at hw'
      simp only [Option.some.injEq] at hw'
      rw [← hw', himm] at hi
      simp at hi
    · rw [if_neg hkk] at hw'
      exact h1 k w c w' hv hc hat hw' hi
  · intro k0 k w c hcu hk hc hat hca
    simp only [Option.some.injEq] at hcu
    obtain ⟨_, hv⟩ := hback k w c hk hc
    obtain ⟨w', hv'⟩ := h3 k w c hv hc hat
    rw [hca, ← hcu, hfresh] at hv'
    simp at hv'
  · intro k w c hk hc hat
    obtain ⟨_, hv⟩ := hback k w c hk hc
    obtain ⟨w', hv'⟩ := h3 k w c hv hc hat
    unfold view_set
    by_cases hkk : c.atom = k1
    · exact ⟨nw, by rw [if_pos hkk]⟩
    · exact ⟨w', by rw [if_neg hkk]; exact hv'⟩

theorem inv_on_no_curr (V : List Char → Option word_t) (curr : Option (List Char))
    (h : inv_on V curr) : inv_on V none :=
  ⟨h.1, fun _ _ _ _ hcu => by simp at hcu, h.2.2⟩

theorem body_inv_congr (interp interp1 : tpmi_t)
    (hw : ∀ k, dict_word interp1.words k = dict_word interp.words k)
    (hc : interp1.curr_word = interp.curr_word) (h : body_inv interp) : body_inv interp1 := by
  unfold body_inv at h ⊢
  have : dict_word interp1.words = dict_word interp.words := funext hw
  rw [this, hc]
  exact h

theorem body_inv_update (interp : tpmi_t) (words : dict_t) (k0 : List Char) (f : word_t → word_t)
    (extra : List cell_t)
    (hwords : ∀ k, dict_word words k = dict_word interp.words k)
    (hdef : ∀ w, (f w).def_ = w.def_ ++ extra)
    (himm : ∀ w, (f w).immediate = true → w.immediate = true ∨ interp.curr_word = some k0)
    (hcur : extra ≠ [] → interp.curr_word = some k0)
    (hext : ∀ c ∈ extra, c.type = CT_ATOM →
      ∃ w, dict_word interp.words c.atom = some w ∧ (w.immediate = true → c.atom = k0))
    (h : body_inv interp) :
    body_inv { interp with words := word_update words k0 f } := by
  unfold body_inv at h ⊢
  have e : dict_word (word_update words k0 f) = view_update (dict_word interp.words) k0 f := by
    funext k
    rw [dict_word_update, view_update, hwords, hwords]
  simp only [e]
  exact inv_on_update _ _ k0 f extra hdef himm hcur hext h

theorem body_inv_set (interp : tpmi_t) (a : List Char) (w : word_t) (f : word_t → word_t)
    (hw : dict_word interp.words a = some w)
    (hdef : ∀ w, (f w).def_ = w.def_) (himm : ∀ w, (f w).immediate = w.immediate)
    (h : body_inv interp) :
    inv_on (dict_word (dict_set_word (dict_add interp.words a) a (some (f w))))
      interp.curr_word := by
  unfold body_inv at h
  have e : dict_word (dict_set_word (dict_add interp.words a) a (some (f w)))
      = view_update (dict_word interp.words) a f := by
    funext k
    rw [dict_word_set_add, view_update, hw]
    rfl
  rw [e]
  exact inv_on_update _ _ a f [] (fun w => by rw [hdef, List.append_nil])
    (fun w hi => Or.inl (by rw [← himm]; exact hi)) (fun hne => absurd rfl hne)
    (fun c hc => by simp at hc) h

theorem tpmi_compile_token_body_inv (nat : natives_t) (fuel : Nat)
    (hnw : natives_keep tpmi_t.words nat) (hnc : natives_keep tpmi_t.curr_word nat)
    (interp : tpmi_t) (line : List Char) (len : Nat) (st : tpmi_status_t) (interp1 : tpmi_t)
    (h : tpmi_compile_token nat fuel interp line len = .ok (st, interp1))
    (hinv : body_inv interp) : body_inv interp1 := by
  have hev : ∀ (I : tpmi_t) (c : cell_t), eval_cell nat fuel I c = .ok (st, interp1) →
      body_inv I → body_inv interp1 :=
    fun I c h1 hI => body_inv_congr I interp1
      (fun k => by
        rw [eval_cell_keeps tpmi_t.words off_stack_words nat hnw fuel I c st interp1 h1])
      (eval_cell_keeps tpmi_t.curr_word off_stack_curr_word nat hnc fuel I c st interp1 h1) hI
  unfold tpmi_compile_token at h
  simp only at h
  split at h
  · -- Evaluate
    split at h
    · simp only [Except.ok.injEq, Prod.mk.injEq] at h
      rw [← h.2]
      exact inv_on_no_curr _ _ hinv
    · split at h
      · simp only [Except.ok.injEq, Prod.mk.injEq] at h
        rw [← h.2]
        exact hinv
      · split at h
        · simp only [Except.ok.injEq, Prod.mk.injEq] at h
          rw [← h.2]
          exact hinv
        · split at h
          · split at h
            · rename_i key hcurr
              simp only [Except.ok.injEq, Prod.mk.injEq] at h
              rw [← h.2]
              exact body_inv_update interp interp.words key _ [] (fun _ => rfl)
                (fun w => by rw [List.append_nil]) (fun w _ => Or.inr hcurr)
                (fun hne => absurd rfl hne) (fun c hc => by simp at hc) hinv
            · simp only [Except.ok.injEq, Prod.mk.injEq] at h
              rw [← h.2]
              exact hinv
          · exact hev _ _ h hinv
  · -- Compile
    split at h
    · simp only [Except.ok.injEq, Prod.mk.injEq] at h
      rw [← h.2]
      exact hinv
    · split at h
      · rename_i hcurr
        split at h
        · split at h
          · rename_i hfresh
            simp only [Except.ok.injEq, Prod.mk.injEq] at h
            rw [← h.2]
            rw [dict_word_add] at hfresh
            unfold body_inv at hinv ⊢
            have e : dict_word (dict_set_word (dict_add interp.words (make_cell line len).atom)
                  (make_cell line len).atom (some ⟨WT_DEF, false, none, []⟩))
                = view_set (dict_word interp.words) (make_cell line len).atom
                    ⟨WT_DEF, false, none, []⟩ := by
              funext k
              rw [dict_word_set_add, view_set]
            simp only [e]
            exact inv_on_name _ _ _ _ rfl rfl hfresh hinv
          · simp only [Except.ok.injEq, Prod.mk.injEq] at h
            rw [← h.2]
            exact body_inv_congr interp _ (fun k => dict_word_add _ _ _) rfl hinv
        · simp only [Except.ok.injEq, Prod.mk.injEq] at h
          rw [← h.2]
          exact body_inv_congr interp _ (fun k => rfl) rfl hinv
      · rename_i curr hcurr
        split at h
        · rename_i hat
          split at h
          · simp at h
          · rename_i word hword
            rw [dict_word_add] at hword
            split at h
            · exact hev _ _ h
                (body_inv_congr interp _ (fun k => dict_word_add _ _ _) rfl hinv)
            · rename_i hni
              simp only [Except.ok.injEq, Prod.mk.injEq] at h
              rw [← h.2]
              exact body_inv_update interp _ curr _ [cell_copy (make_cell line len)]
                (fun k => dict_word_add _ _ _) (fun w => rfl) (fun w hi => Or.inl hi)
                (fun _ => hcurr)
                (fun c hc _ => by
                  simp only [List.mem_singleton] at hc
                  subst hc
                  exact ⟨word, hword, fun hi => absurd hi hni⟩) hinv
        · rename_i hat
          simp only [Except.ok.injEq, Prod.mk.injEq] at h
          rw [← h.2]
          exact body_inv_update interp _ curr _ [cell_copy (make_cell line len)]
            (fun k => rfl) (fun w => rfl) (fun w hi => Or.inl hi) (fun _ => hcurr)
            (fun c hc hca => by
              simp only [List.mem_singleton] at hc
              subst hc
              exact absurd hca hat) hinv
  · -- DeclareVariable
    split at h
    · split at h
      · simp at h
      · rename_i word hword
        simp only [Except.ok.injEq, Prod.mk.injEq] at h
        rw [← h.2]
        rw [dict_word_add] at hword
        exact body_inv_set interp _ word (fun w => { w with type := WT_VAR }) hword
          (fun _ => rfl) (fun _ => rfl) hinv
    · simp only [Except.ok.injEq, Prod.mk.injEq] at h
      rw [← h.2]
      exact body_inv_congr interp _ (fun k => rfl) rfl hinv
  · -- FunctionReference
    split at h
    · split at h
      · simp at h
      · split at h
        · simp only [Except.ok.injEq, Prod.mk.injEq] at h
          rw [← h.2]
          exact body_inv_congr interp _ (fun k => dict_word_add _ _ _) rfl hinv
        · simp only [Except.ok.injEq, Prod.mk.injEq] at h
          rw [← h.2]
          exact body_inv_congr interp _ (fun k => dict_word_add _ _ _) rfl hinv
    · simp only [Except.ok.injEq, Prod.mk.injEq] at h
      rw [← h.2]
      exact body_inv_congr interp _ (fun k => rfl) rfl hinv

theorem tpmi_compile_loop_body_inv (nat : natives_t) (fuel : Nat)
    (hnw : natives_keep tpmi_t.words nat) (hnc : natives_keep tpmi_t.curr_word nat)
    (k : Nat) (interp : tpmi_t) (line : List Char) (status : tpmi_status_t) (n : Nat)
    (r : compile_t)
    (h : tpmi_compile_loop nat fuel k interp line status n = .ok r)
    (hinv : body_inv interp) : body_inv r.interp := by
  induction k generalizing interp line status with
  | zero => simp [tpmi_compile_loop] at h
  | succ k ih =>
    rw [tpmi_compile_loop] at h
    split at h
    · simp only [Except.ok.injEq] at h
      rw [← h]
      exact body_inv_congr interp _ (fun _ => rfl) rfl hinv
    · split at h
      · simp only [Except.ok.injEq] at h
        rw [← h]
        exact hinv
      · split at h
        · simp at h
        · rename_i st interp1 htok
          have h1 := tpmi_compile_token_body_inv nat fuel hnw hnc _ _ _ _ _ htok hinv
          split at h
          · simp only [Except.ok.injEq] at h
            rw [← h]
            exact h1
          · exact ih _ _ _ h h1

theorem dict_find_mem (d : dict_t) (key : List Char) (e : entry_t)
    (h : dict_find d key = some e) : e ∈ d := by
  induction d with
  | nil => simp [dict_find] at h
  | cons x rest ih =>
    simp only [dict_find] at h
    split at h
    · simp only [Option.some.injEq] at h
      rw [← h]
      exact List.mem_cons_self _ _
    · exact List.mem_cons_of_mem _ (ih h)

theorem body_inv_of_no_bodies (interp : tpmi_t) (h0 : interp.curr_word = none)
    (hb : no_bodies interp.words) : body_inv interp := by
  have hnil : ∀ (k : List Char) (w : word_t), dict_word interp.words k = some w →
      w.def_ = [] := by
    intro k w hk
    obtain ⟨e, he, hw⟩ := (dict_word_eq_some _ _ _).1 hk
    have := hb e (dict_find_mem _ _ _ he)
    rw [hw] at this
    exact this
  unfold body_inv
  rw [h0]
  refine ⟨?_, ?_, ?_⟩
  · intro k w c w' hk hc
    rw [hnil k w hk] at hc
    simp at hc
  · intro k0 k w c hcu
    simp at hcu
  · intro k w c hk hc
    rw [hnil k w hk] at hc
    simp at hc

theorem reachable_body_inv (nat : natives_t)
    (hnw : natives_keep tpmi_t.words nat) (hnc : natives_keep tpmi_t.curr_word nat)
    (init interp : tpmi_t) (hinit : body_inv init) (hr : reachable nat init interp) :
    body_inv interp := by
  induction hr with
  | start => exact hinit
  | feed I fuel line r _ hline ih =>
    exact tpmi_compile_loop_body_inv nat fuel hnw hnc _ _ _ _ _ _ hline ih

theorem ex_natives_keep_words : natives_keep tpmi_t.words ex_natives := by
  intro p interp
  simp only [ex_natives, ex_builtin]
  split <;> rfl

theorem ex_natives_keep_curr_word : natives_keep tpmi_t.curr_word ex_natives := by
  intro p interp
  simp only [ex_natives, ex_builtin]
  split <;> rfl

theorem ex_a_b_reachable : reachable ex_natives (ex_interp []) (ex_a_b true) := by
  have h1 : tpmi_compile ex_natives 1 (ex_interp []) ": a 1 ;".toList
      = .ok ⟨TPMI_OK, ex_a false (some ['a']), none⟩ := by decide
  have h2 : tpmi_compile ex_natives 1 (ex_a false (some ['a'])) ": b a ;".toList
      = .ok ⟨TPMI_OK, ex_a_b false, none⟩ := by decide
  have h3 : tpmi_compile ex_natives 1 (ex_a_b false) "immediate".toList
      = .ok ⟨TPMI_OK, ex_a_b true, none⟩ := by decide
  exact reachable.feed _ _ _ _ (reachable.feed _ _ _ _
    (reachable.feed _ _ _ _ reachable.start h1) h2) h3

/-- C19, as stated, fails: the lines `: a a ;` and `immediate` lead from the
example state with an empty stack to a state in which the body of the
Definition `a` holds the atom `a`, and `a` is immediate.  The flag is set
after the body was compiled. -/
theorem body_names_word_flagged_later :
    tpmi_compile ex_natives 1 (ex_interp []) ": a a ;".toList
      = .ok ⟨TPMI_OK, ex_rec false, none⟩ ∧
    tpmi_compile ex_natives 1 (ex_rec false) "immediate".toList
      = .ok ⟨TPMI_OK, ex_rec true, none⟩ ∧
    dict_word (ex_rec true).words ['a']
      = some ⟨WT_DEF, true, none, [⟨CT_ATOM, .chars ['a']⟩]⟩ := by
  refine ⟨by decide, by decide, by decide⟩

/-- C19, amended.  In every interpreter state reachable from an initial
state (no current word, no word with a body) by feeding any sequence of lines
to `tpmi_compile`, for native routines that leave the dictionary and the
current word alone: no Definition word's body contains an atom cell naming a
word whose immediate flag is set, except an atom naming the Definition
itself.  That is, an atom cell `c` of the body of the word named `k` (a
Definition or, after `variable`, a Variable) that names another word names a
word that is not immediate. -/
theorem reachable_bodies_name_no_other_immediate (nat : natives_t)
    (hnw : natives_keep tpmi_t.words nat) (hnc : natives_keep tpmi_t.curr_word nat)
    (init interp : tpmi_t) (h0 : init.curr_word = none) (hb : no_bodies init.words)
    (hr : reachable nat init interp)
    (k : List Char) (w : word_t) (c : cell_t) (w' : word_t)
    (hk : dict_word interp.words k = some w)
    (hc : c ∈ w.def_) (hat : c.type = CT_ATOM) (hne : c.atom ≠ k)
    (hw' : dict_word interp.words c.atom = some w') : w'.immediate = false := by
  have hinv := reachable_body_inv nat hnw hnc init interp
    (body_inv_of_no_bodies init h0 hb) hr
  cases hi : w'.immediate with
  | false => rfl
  | true => exact absurd (hinv.1 k w c w' hk hc hat hw' hi) hne

/-- Witness of amended C19: the lines `: a 1 ;`, `: b a ;` and `immediate`
lead from the example state to a state in which `b` is immediate and the
body of `b` holds the atom `a`; the word `a` is not immediate. -/
theorem reachable_bodies_name_no_other_immediate_witness :
    reachable ex_natives (ex_interp []) (ex_a_b true) ∧
    dict_word (ex_a_b true).words ['b']
      = some ⟨WT_DEF, true, none, [⟨CT_ATOM, .chars ['a']⟩]⟩ ∧
    (⟨WT_DEF, false, none, [⟨CT_INT, .i 1⟩]⟩ : word_t).immediate = false :=
  ⟨ex_a_b_reachable, by decide,
   reachable_bodies_name_no_other_immediate ex_natives ex_natives_keep_words
     ex_natives_keep_curr_word (ex_interp []) (ex_a_b true) rfl (by decide) ex_a_b_reachable
     ['b'] ⟨WT_DEF, true, none, [⟨CT_ATOM, .chars ['a']⟩]⟩ ⟨CT_ATOM, .chars ['a']⟩
     ⟨WT_DEF, false, none, [⟨CT_INT, .i 1⟩]⟩
     (by decide) (by decide) rfl (by decide) (by decide)⟩

end Texproma
